import Mathlib

/-!
# Verification of the aaska2 incremental-computation engine and markdown pipeline

This file shallowly embeds the parts of the `druskus20/aaska2` repository that
the specification talks about, and proves (or refutes) the spec's claims.

* `src/src/path.rs` (`normalize_path`, `soft_cannonicalize`) is embedded over a
  model of Unix path components (the repository only handles Unix-style paths;
  Windows `Prefix` components do not arise and the `Prefix` branch of the
  source is dead on Unix).  A path is modelled as the list of components that
  Rust's `Path::components()` iterator yields.
* `src/src/db.rs` / `src/src/lib.rs` (`md_to_html`, `md_to_chonk`,
  `is_internal_link`) are embedded over a model of pulldown-cmark events; the
  markdown grammar itself is an external collaborator and out of scope, so the
  rendering queries are modelled as functions of the parsed event stream.
* The incremental engine itself (the `picante` / `salsa` database the spec
  describes) is not part of the repository's `src/` tree: only its callers and
  test harnesses are.  The engine is therefore modelled from the spec
  (sections 3, 4.1, 4.2, 5 and 7); every such definition carries a
  `Modelled from the spec:` doc comment.
-/

/-! ## Path model (src/src/path.rs) -/

/-- A Unix path component, as yielded by Rust's `Path::components()`.
`Prefix` components only exist on Windows and are omitted. -/
inductive Component where
  | rootDir
  | curDir
  | parentDir
  | normal (s : String)
deriving DecidableEq

/-- Rust `Path::has_root` on a component list: the path starts with `/`. -/
def has_root : List Component → Bool
  | Component.rootDir :: _ => true
  | _ => false

/-- Rust `Path::is_absolute` on Unix coincides with `has_root`. -/
def is_absolute (cs : List Component) : Bool := has_root cs

/-- Rust `PathBuf::pop`: removes the last component and returns `true`;
returns `false` (leaving the path alone) when the path is empty or terminates
in a root. -/
def popPath (cs : List Component) : List Component × Bool :=
  match cs with
  | [] => ([], false)
  | [Component.rootDir] => ([Component.rootDir], false)
  | _ => (cs.dropLast, true)

/-- Rust `Path::ends_with(Component::ParentDir)`: the last component is `..`. -/
def ends_with_parent (cs : List Component) : Bool :=
  match cs.getLast? with
  | some Component.parentDir => true
  | _ => false

/-- One iteration of the `for component in components` loop of
`normalize_path` in src/src/path.rs (lines 77-98).  `ret` is the accumulated
`PathBuf`.  Pushing `RootDir` pushes the absolute path `/`, which replaces the
accumulated path entirely (Rust `PathBuf::push` semantics). -/
def normStep (ret : List Component) : Component → List Component
  | Component.rootDir => [Component.rootDir]
  | Component.curDir => ret
  | Component.parentDir =>
      if ends_with_parent ret then
        ret ++ [Component.parentDir]
      else
        let p := popPath ret
        if !p.2 && !has_root p.1 then p.1 ++ [Component.parentDir] else p.1
  | Component.normal s => ret ++ [Component.normal s]

/-- `normalize_path` from src/src/path.rs (lines 68-100), on Unix: the
`Component::Prefix` peek never fires, so `ret` starts empty and the loop folds
`normStep` over the components. -/
def normalize_path (cs : List Component) : List Component :=
  cs.foldl normStep []

/-- The leading `CurDir` of a relative path disappears when the path is joined
onto a non-empty base: `pwd.join("./x")` re-parses as `pwd/x`.  This models
Rust `Path::join` at the component level for a relative argument. -/
def stripLeadingCur : List Component → List Component
  | Component.curDir :: rest => rest
  | cs => cs

/-- Rust `pwd.join(path)` for the component lists, when `path` is relative:
the components of the joined path are the components of `pwd` followed by the
components of `path` (whose leading `.`, if any, is no longer leading and is
normalized away by the components iterator). -/
def joinComponents (pwd p : List Component) : List Component :=
  pwd ++ stripLeadingCur p

/-- `soft_cannonicalize` from src/src/path.rs (lines 108-115): an absolute
path is taken as is, a relative path is joined onto `pwd`; the result is
normalized. -/
def soft_cannonicalize (p : List Component) (pwd : List Component) : List Component :=
  let path := if is_absolute p then p else joinComponents pwd p
  normalize_path path

/-- A normalized absolute path: a leading root followed by plain names only. -/
def IsNormalizedAbs (cs : List Component) : Prop :=
  ∃ rs, cs = Component.rootDir :: rs ∧ ∀ c ∈ rs, ∃ s, c = Component.normal s

-- Sanity checks: the `test_normalize_path` vectors from src/src/path.rs.
example : normalize_path [.normal "a", .normal "b", .normal "c"]
    = [.normal "a", .normal "b", .normal "c"] := by decide
example : normalize_path [.normal "a", .normal "b", .parentDir, .normal "c"]
    = [.normal "a", .normal "c"] := by decide
example : normalize_path [.rootDir, .normal "a", .normal "b", .parentDir, .normal "c"]
    = [.rootDir, .normal "a", .normal "c"] := by decide
example : normalize_path [.curDir, .normal "a", .normal "b", .normal "c"]
    = [.normal "a", .normal "b", .normal "c"] := by decide
example : normalize_path [.normal "a", .normal "b", .normal "c", .parentDir]
    = [.normal "a", .normal "b"] := by decide
example : normalize_path [.rootDir, .parentDir, .normal "a", .normal "b"]
    = [.rootDir, .normal "a", .normal "b"] := by decide
example : normalize_path [.parentDir, .normal "a", .normal "b"]
    = [.parentDir, .normal "a", .normal "b"] := by decide
example : normalize_path [.normal "a", .normal "b", .normal "c", .parentDir, .parentDir, .normal "d"]
    = [.normal "a", .normal "d"] := by decide

theorem normStep_preserves_normalizedAbs (ret : List Component) (c : Component)
    (h : IsNormalizedAbs ret) : IsNormalizedAbs (normStep ret c) := by
  obtain ⟨rs, hret, hall⟩ := h
  subst hret
  cases c with
  | rootDir => exact ⟨[], rfl, by simp⟩
  | curDir => exact ⟨rs, rfl, hall⟩
  | parentDir =>
      have hlast : ends_with_parent (Component.rootDir :: rs) = false := by
        unfold ends_with_parent
        cases hgl : (Component.rootDir :: rs).getLast? with
        | none => simp at hgl
        | some c =>
            cases c with
            | parentDir =>
                exfalso
                have hopt : Component.parentDir ∈ (Component.rootDir :: rs).getLast? := hgl
                obtain ⟨hne, heq⟩ := List.mem_getLast?_eq_getLast hopt
                have hmem : Component.parentDir ∈ Component.rootDir :: rs := by
                  rw [heq]; exact List.getLast_mem hne
                rcases List.mem_cons.mp hmem with h | h
                · exact Component.noConfusion h
                · obtain ⟨s, hs⟩ := hall _ h
                  exact Component.noConfusion hs
            | rootDir => rfl
            | curDir => rfl
            | normal s => rfl
      unfold normStep
      rw [hlast]
      simp only [Bool.false_eq_true, if_false]
      cases rs with
      | nil =>
          exact ⟨[], rfl, by simp⟩
      | cons r rs' =>
          have hpop : popPath (Component.rootDir :: r :: rs')
              = ((Component.rootDir :: r :: rs').dropLast, true) := rfl
          rw [hpop]
          simp only [Bool.not_true, Bool.false_and, Bool.false_eq_true, if_false]
          have : (Component.rootDir :: r :: rs').dropLast
              = Component.rootDir :: (r :: rs').dropLast := by
            simp [List.dropLast]
          rw [this]
          refine ⟨(r :: rs').dropLast, rfl, ?_⟩
          intro c hc
          exact hall c (List.dropLast_subset _ hc)
  | normal s =>
      refine ⟨rs ++ [Component.normal s], rfl, ?_⟩
      intro c hc
      rcases List.mem_append.mp hc with h | h
      · exact hall c h
      · exact ⟨s, by simpa using h⟩

theorem foldl_normStep_preserves (cs : List Component) :
    ∀ ret, IsNormalizedAbs ret → IsNormalizedAbs (cs.foldl normStep ret) := by
  induction cs with
  | nil => intro ret h; exact h
  | cons c cs ih =>
      intro ret h
      exact ih _ (normStep_preserves_normalizedAbs ret c h)

/-- Normalizing any component list that starts with a root yields a normalized
absolute path. -/
theorem normalize_path_abs (cs : List Component) :
    IsNormalizedAbs (normalize_path (Component.rootDir :: cs)) := by
  unfold normalize_path
  rw [List.foldl_cons]
  exact foldl_normStep_preserves cs (normStep [] Component.rootDir) ⟨[], rfl, by simp⟩

/-- A normalized absolute path is a fixed point of `normalize_path`. -/
theorem normalize_path_fixed (cs : List Component) (h : IsNormalizedAbs cs) :
    normalize_path cs = cs := by
  obtain ⟨rs, hcs, hall⟩ := h
  subst hcs
  unfold normalize_path
  rw [List.foldl_cons]
  show rs.foldl normStep [Component.rootDir] = Component.rootDir :: rs
  have : ∀ (rs : List Component), (∀ c ∈ rs, ∃ s, c = Component.normal s) →
      ∀ acc, rs.foldl normStep acc = acc ++ rs := by
    intro rs
    induction rs with
    | nil => intro _ acc; simp
    | cons r rs' ih =>
        intro hall acc
        obtain ⟨s, hs⟩ := hall r (List.mem_cons_self r rs')
        subst hs
        rw [List.foldl_cons]
        show rs'.foldl normStep (acc ++ [Component.normal s]) = acc ++ Component.normal s :: rs'
        rw [ih (fun c hc => hall c (List.mem_cons_of_mem _ hc)) (acc ++ [Component.normal s])]
        simp
  rw [this rs hall [Component.rootDir]]
  rfl

theorem isNormalizedAbs_absolute {cs : List Component} (h : IsNormalizedAbs cs) :
    is_absolute cs = true := by
  obtain ⟨rs, hcs, _⟩ := h
  subst hcs
  rfl

theorem isNormalizedAbs_no_dots {cs : List Component} (h : IsNormalizedAbs cs) :
    Component.curDir ∉ cs ∧ Component.parentDir ∉ cs := by
  obtain ⟨rs, hcs, hall⟩ := h
  subst hcs
  constructor
  · intro hmem
    rcases List.mem_cons.mp hmem with h | h
    · exact Component.noConfusion h
    · obtain ⟨s, hs⟩ := hall _ h; exact Component.noConfusion hs
  · intro hmem
    rcases List.mem_cons.mp hmem with h | h
    · exact Component.noConfusion h
    · obtain ⟨s, hs⟩ := hall _ h; exact Component.noConfusion hs

/-- When the input path is absolute, `soft_cannonicalize` ignores `pwd` and
just normalizes. -/
theorem soft_cannonicalize_of_abs (p pwd : List Component)
    (hp : is_absolute p = true) :
    soft_cannonicalize p pwd = normalize_path p := by
  unfold soft_cannonicalize
  simp [hp]

theorem soft_cannonicalize_normalizedAbs (p pwd : List Component)
    (hpwd : is_absolute pwd = true) :
    IsNormalizedAbs (soft_cannonicalize p pwd) := by
  unfold soft_cannonicalize
  by_cases hp : is_absolute p = true
  · simp only [hp, if_true]
    unfold is_absolute has_root at hp
    match p, hp with
    | Component.rootDir :: rest, _ => exact normalize_path_abs rest
  · simp only [hp]
    unfold is_absolute has_root at hpwd
    match pwd, hpwd with
    | Component.rootDir :: rest, _ =>
        show IsNormalizedAbs (normalize_path (joinComponents (Component.rootDir :: rest) p))
        unfold joinComponents
        rw [List.cons_append]
        exact normalize_path_abs _

/-- C10: `soft_cannonicalize` (src/src/path.rs lines 108-115) against an
absolute working directory always produces an absolute path free of `.` and
`..` components; when the input path is already absolute the result is
`normalize_path` of it and the working directory is ignored; and the function
is idempotent — re-canonicalizing its own result (under any absolute working
directory) gives the same path. -/
theorem soft_cannonicalize_spec (p pwd pwd' : List Component)
    (hpwd : is_absolute pwd = true) (hpwd' : is_absolute pwd' = true) :
    (is_absolute (soft_cannonicalize p pwd) = true
      ∧ Component.curDir ∉ soft_cannonicalize p pwd
      ∧ Component.parentDir ∉ soft_cannonicalize p pwd)
    ∧ (is_absolute p = true →
        soft_cannonicalize p pwd = normalize_path p
        ∧ soft_cannonicalize p pwd' = soft_cannonicalize p pwd)
    ∧ soft_cannonicalize (soft_cannonicalize p pwd) pwd' = soft_cannonicalize p pwd := by
  have hnorm := soft_cannonicalize_normalizedAbs p pwd hpwd
  refine ⟨⟨isNormalizedAbs_absolute hnorm, (isNormalizedAbs_no_dots hnorm).1,
      (isNormalizedAbs_no_dots hnorm).2⟩, ?_, ?_⟩
  · intro hp
    exact ⟨soft_cannonicalize_of_abs p pwd hp,
      (soft_cannonicalize_of_abs p pwd' hp).trans (soft_cannonicalize_of_abs p pwd hp).symm⟩
  · rw [soft_cannonicalize_of_abs _ pwd' (isNormalizedAbs_absolute hnorm)]
    exact normalize_path_fixed _ hnorm

/-- Witness for C10 at a concrete input (`soft_cannonicalize ../a /b`): the
result is absolute and idempotent under re-canonicalization. -/
theorem soft_cannonicalize_spec_witness :
    is_absolute (soft_cannonicalize [Component.parentDir, Component.normal "a"]
        [Component.rootDir, Component.normal "b"]) = true
    ∧ soft_cannonicalize (soft_cannonicalize [Component.parentDir, Component.normal "a"]
          [Component.rootDir, Component.normal "b"]) [Component.rootDir]
      = soft_cannonicalize [Component.parentDir, Component.normal "a"]
          [Component.rootDir, Component.normal "b"] :=
  ⟨(soft_cannonicalize_spec [Component.parentDir, Component.normal "a"]
      [Component.rootDir, Component.normal "b"] [Component.rootDir]
      (by decide) (by decide)).1.1,
    (soft_cannonicalize_spec [Component.parentDir, Component.normal "a"]
      [Component.rootDir, Component.normal "b"] [Component.rootDir]
      (by decide) (by decide)).2.2⟩

/-! ## Markdown rendering model (src/src/db.rs, src/src/lib.rs) -/

/-- A pulldown-cmark `Tag`, restricted to the cases the source matches on:
`Tag::Image { dest_url, .. }`, `Tag::Link { dest_url, .. }` and the `_`
catch-all.  `image` and `link` carry both the raw `dest_url` string (pushed
by `md_to_chonk` in src/src/lib.rs) and its parse into path components,
`PathBuf::from(dest_url)` (fed to `SrcPath::from_relaxed_path` by
`md_to_html` in src/src/db.rs); the OS path parsing itself is an external
collaborator. -/
inductive MdTag where
  | image (dest_url : String) (dest_path : List Component)
  | link (dest_url : String) (dest_path : List Component)
  | otherTag
deriving DecidableEq

/-- A pulldown-cmark `Event`, restricted to the cases the source matches on:
`Event::Start(tag)`, `Event::Html(_) | Event::InlineHtml(_)` and the `_`
catch-all.  The markdown parser producing the stream is an external
collaborator and out of scope. -/
inductive MdEvent where
  | start (tag : MdTag)
  | html (s : String)
  | inlineHtml (s : String)
  | otherEvent
deriving DecidableEq

/-- `is_internal_link` from src/src/db.rs lines 183-185 and src/src/lib.rs
lines 195-197: the body is `todo!()`, which panics unconditionally on every
input.  A panic (divergence) is modelled as `none`. -/
def is_internal_link (link : String) : Option Bool := none

/-- Rust `Path::file_name` at the component level: the last component when it
is a plain name, `None` otherwise (the empty path, `/`, or a path ending in
`..`; a trailing `.` cannot occur in the normalized paths this model applies
it to). -/
def path_file_name (cs : List Component) : Option String :=
  match cs.getLast? with
  | some (Component.normal s) => some s
  | _ => none

/-- `SrcPath::from_relaxed_path` from src/src/path.rs lines 14-43: the path
is soft-canonicalized against the working directory `pwd`, and the filename
index is computed with `.expect("Failed to get filename index")` — a panic
(`none`) whenever the canonical path has no file name (for example
`dest_url = "/"`).  The resulting `SrcPath` is modelled by its canonical
component list; the `filename_i`/`ext_index` fields are string-offset
bookkeeping into that same path. -/
def from_relaxed_path (p : List Component) (pwd : List Component) :
    Option (List Component) :=
  match path_file_name (soft_cannonicalize p pwd) with
  | none => none
  | some _ => some (soft_cannonicalize p pwd)

/-- One step of the `inspect` closure of `md_to_html` (src/src/db.rs lines
152-174): an `Image` start tag pushes `SrcPath::from_relaxed_path(dest_url)`
onto `assets` — which panics when the canonicalized url has no file name; a
`Link` start tag first calls `is_internal_link` (whose body is `todo!()`, an
unconditional panic) and would push the `SrcPath` only for internal links;
`Html`/`InlineHtml` only log a warning; everything else is skipped.  A panic
propagates as `none`. -/
def inspectEventDb (pwd : List Component) (assets : List (List Component))
    (e : MdEvent) : Option (List (List Component)) :=
  match e with
  | MdEvent.start (MdTag.image _ comps) =>
      match from_relaxed_path comps pwd with
      | none => none
      | some sp => some (assets ++ [sp])
  | MdEvent.start (MdTag.link url comps) =>
      match is_internal_link url with
      | none => none
      | some b =>
          if !b then some assets
          else
            match from_relaxed_path comps pwd with
            | none => none
            | some sp => some (assets ++ [sp])
  | _ => some assets

/-- One step of the `inspect` closure of `md_to_chonk` (src/src/lib.rs lines
154-177): an `Image` start tag pushes the raw `dest_url.to_string()`; a
`Link` start tag first calls `is_internal_link` (an unconditional panic) and
would push the url only for internal links; everything else is skipped. -/
def inspectEvent (assets : List String) (e : MdEvent) : Option (List String) :=
  match e with
  | MdEvent.start (MdTag.image url _) => some (assets ++ [url])
  | MdEvent.start (MdTag.link url _) =>
      match is_internal_link url with
      | none => none
      | some b => if !b then some assets else some (assets ++ [url])
  | _ => some assets

/-- The `md_to_html` event loop, threading the `SrcPath` accumulator; `none`
models a panic escaping the rendering query. -/
def processEventsDb (pwd : List Component) (assets : List (List Component)) :
    List MdEvent → Option (List (List Component))
  | [] => some assets
  | e :: es =>
      match inspectEventDb pwd assets e with
      | none => none
      | some assets' => processEventsDb pwd assets' es

/-- The `md_to_chonk` event loop, threading the string accumulator. -/
def processEvents (assets : List String) : List MdEvent → Option (List String)
  | [] => some assets
  | e :: es =>
      match inspectEvent assets e with
      | none => none
      | some assets' => processEvents assets' es

/-- Asset extraction of the tracked query `md_to_html` (src/src/db.rs lines
142-180), with `pwd` the process working directory read by
`from_relaxed_path`.  The html string produced by the external pulldown-cmark
writer is out of scope; the observable behaviour modelled is the asset
accumulation and whether the query panics (`none`). -/
def md_to_html_assets (pwd : List Component) (events : List MdEvent) :
    Option (List (List Component)) :=
  processEventsDb pwd [] events

/-- Rust `Vec::dedup`: removes consecutive duplicate elements. -/
def dedupConsecutive : List String → List String
  | [] => []
  | [a] => [a]
  | a :: b :: rest =>
      if a = b then dedupConsecutive (b :: rest)
      else a :: dedupConsecutive (b :: rest)

/-- Asset extraction of `md_to_chonk` (src/src/lib.rs lines 144-192): the
same event loop over the raw urls, followed by
`assets.sort(); assets.dedup();`. -/
def md_to_chonk_assets (events : List MdEvent) : Option (List String) :=
  (processEvents [] events).map
    (fun assets => dedupConsecutive (assets.mergeSort (fun a b => a ≤ b)))

theorem processEvents_none_iff (events : List MdEvent) :
    ∀ assets, (processEvents assets events = none
      ↔ ∃ url comps, MdEvent.start (MdTag.link url comps) ∈ events) := by
  induction events with
  | nil =>
      intro assets
      simp [processEvents]
  | cons e es ih =>
      intro assets
      cases e with
      | start tag =>
          cases tag with
          | image url comps =>
              simp only [processEvents, inspectEvent, ih]
              constructor
              · rintro ⟨url', comps', h⟩
                exact ⟨url', comps', List.mem_cons_of_mem _ h⟩
              · rintro ⟨url', comps', h⟩
                rcases List.mem_cons.mp h with h | h
                · exact absurd h (by simp)
                · exact ⟨url', comps', h⟩
          | link url comps =>
              simp only [processEvents, inspectEvent, is_internal_link]
              constructor
              · intro _
                exact ⟨url, comps, List.mem_cons_self _ _⟩
              · intro _
                trivial
          | otherTag =>
              simp only [processEvents, inspectEvent, ih]
              constructor
              · rintro ⟨url', comps', h⟩
                exact ⟨url', comps', List.mem_cons_of_mem _ h⟩
              · rintro ⟨url', comps', h⟩
                rcases List.mem_cons.mp h with h | h
                · exact absurd h (by simp)
                · exact ⟨url', comps', h⟩
      | html s =>
          simp only [processEvents, inspectEvent, ih]
          constructor
          · rintro ⟨url', comps', h⟩
            exact ⟨url', comps', List.mem_cons_of_mem _ h⟩
          · rintro ⟨url', comps', h⟩
            rcases List.mem_cons.mp h with h | h
            · exact absurd h (by simp)
            · exact ⟨url', comps', h⟩
      | inlineHtml s =>
          simp only [processEvents, inspectEvent, ih]
          constructor
          · rintro ⟨url', comps', h⟩
            exact ⟨url', comps', List.mem_cons_of_mem _ h⟩
          · rintro ⟨url', comps', h⟩
            rcases List.mem_cons.mp h with h | h
            · exact absurd h (by simp)
            · exact ⟨url', comps', h⟩
      | otherEvent =>
          simp only [processEvents, inspectEvent, ih]
          constructor
          · rintro ⟨url', comps', h⟩
            exact ⟨url', comps', List.mem_cons_of_mem _ h⟩
          · rintro ⟨url', comps', h⟩
            rcases List.mem_cons.mp h with h | h
            · exact absurd h (by simp)
            · exact ⟨url', comps', h⟩

theorem processEventsDb_link_none (pwd : List Component) :
    ∀ (events : List MdEvent) (assets : List (List Component))
      (url : String) (comps : List Component),
      MdEvent.start (MdTag.link url comps) ∈ events →
      processEventsDb pwd assets events = none := by
  intro events
  induction events with
  | nil => intro assets url comps h; exact absurd h (List.not_mem_nil _)
  | cons e es ih =>
      intro assets url comps h
      cases e with
      | start tag =>
          cases tag with
          | image u cs =>
              have hmem : MdEvent.start (MdTag.link url comps) ∈ es := by
                rcases List.mem_cons.mp h with heq | hm
                · exact absurd heq (by simp)
                · exact hm
              simp only [processEventsDb, inspectEventDb]
              cases hfr : from_relaxed_path cs pwd with
              | none => rfl
              | some sp => exact ih _ url comps hmem
          | link u cs =>
              simp only [processEventsDb, inspectEventDb, is_internal_link]
          | otherTag =>
              have hmem : MdEvent.start (MdTag.link url comps) ∈ es := by
                rcases List.mem_cons.mp h with heq | hm
                · exact absurd heq (by simp)
                · exact hm
              simp only [processEventsDb, inspectEventDb]
              exact ih _ url comps hmem
      | html s =>
          have hmem : MdEvent.start (MdTag.link url comps) ∈ es := by
            rcases List.mem_cons.mp h with heq | hm
            · exact absurd heq (by simp)
            · exact hm
          simp only [processEventsDb, inspectEventDb]
          exact ih _ url comps hmem
      | inlineHtml s =>
          have hmem : MdEvent.start (MdTag.link url comps) ∈ es := by
            rcases List.mem_cons.mp h with heq | hm
            · exact absurd heq (by simp)
            · exact hm
          simp only [processEventsDb, inspectEventDb]
          exact ih _ url comps hmem
      | otherEvent =>
          have hmem : MdEvent.start (MdTag.link url comps) ∈ es := by
            rcases List.mem_cons.mp h with heq | hm
            · exact absurd heq (by simp)
            · exact hm
          simp only [processEventsDb, inspectEventDb]
          exact ih _ url comps hmem

-- Link-free streams are no guarantee of success for `md_to_html`: the image
-- arm's `from_relaxed_path` itself panics when the canonicalized url has no
-- file name, e.g. the image destination `/`.
example : md_to_html_assets [Component.rootDir, Component.normal "w"]
    [MdEvent.start (MdTag.image "/" [Component.rootDir])] = none := by decide
example : md_to_html_assets [Component.rootDir, Component.normal "w"]
    [MdEvent.start (MdTag.image "a.png" [Component.normal "a.png"])]
    = some [[Component.rootDir, Component.normal "w", Component.normal "a.png"]] := by decide

/-- C9: any parsed event stream containing a `Link` start tag makes the
rendering queries `md_to_html` (src/src/db.rs) and `md_to_chonk`
(src/src/lib.rs) panic, because the link-classification branch calls
`is_internal_link`, whose body is `todo!()`; so asset extraction succeeds
only for streams containing no link start tags — for `md_to_html` the
converse fails, since its image arm can itself panic inside
`from_relaxed_path` (see the examples above), while for `md_to_chonk`
(which pushes the raw url) success is exactly absence of links; and
`is_internal_link` diverges (panics) on every input string. -/
theorem md_link_panics (events : List MdEvent) (pwd : List Component) :
    (∀ url comps, MdEvent.start (MdTag.link url comps) ∈ events →
      md_to_html_assets pwd events = none ∧ md_to_chonk_assets events = none)
    ∧ (md_to_html_assets pwd events ≠ none →
        ∀ url comps, MdEvent.start (MdTag.link url comps) ∉ events)
    ∧ ((∃ assets, md_to_chonk_assets events = some assets)
        ↔ ∀ url comps, MdEvent.start (MdTag.link url comps) ∉ events)
    ∧ (∀ link, is_internal_link link = none) := by
  refine ⟨?_, ?_, ?_, fun _ => rfl⟩
  · intro url comps hmem
    refine ⟨processEventsDb_link_none pwd events [] url comps hmem, ?_⟩
    have hnone : processEvents [] events = none :=
      (processEvents_none_iff events []).mpr ⟨url, comps, hmem⟩
    simp [md_to_chonk_assets, hnone]
  · intro hne url comps hmem
    exact hne (processEventsDb_link_none pwd events [] url comps hmem)
  · constructor
    · rintro ⟨assets, hsome⟩ url comps hmem
      have hnone : processEvents [] events = none :=
        (processEvents_none_iff events []).mpr ⟨url, comps, hmem⟩
      rw [md_to_chonk_assets, hnone] at hsome
      exact Option.noConfusion hsome
    · intro hno
      rcases hsome : processEvents [] events with _ | assets
      · obtain ⟨url, comps, hmem⟩ := (processEvents_none_iff events []).mp hsome
        exact absurd hmem (hno url comps)
      · exact ⟨dedupConsecutive (assets.mergeSort (fun a b => a ≤ b)),
          by simp [md_to_chonk_assets, hsome]⟩

/-- Witness for C9 at concrete inputs: a one-link stream panics in both
queries, and `is_internal_link` panics on an arbitrary string. -/
theorem md_link_panics_witness :
    (md_to_html_assets [Component.rootDir]
        [MdEvent.start (MdTag.link "https://x.org" [Component.normal "x"])] = none
      ∧ md_to_chonk_assets
        [MdEvent.start (MdTag.link "https://x.org" [Component.normal "x"])] = none)
    ∧ is_internal_link "anything" = none :=
  ⟨(md_link_panics [MdEvent.start (MdTag.link "https://x.org" [Component.normal "x"])]
      [Component.rootDir]).1 "https://x.org" [Component.normal "x"] (by simp),
    (md_link_panics [] [Component.rootDir]).2.2.2 "anything"⟩

/-! ## Incremental engine model

The evaluation engine (Memo Table, Revision Clock, Input Cell Store,
Dependency Recorder, cycle guard) is the `picante`/`salsa` database used by
the repository's examples; its implementation is not under `src/`, so it is
modelled from the spec, sections 3, 4.1 and 4.2.  Query bodies are a deep
embedding (`QueryComp`) whose operations are exactly the reads the Dependency
Recorder tracks: input-cell reads and nested query calls.  Sequential
evaluation is modelled with a fuel parameter for totality; the cycle guard is
the stack of in-progress `(query, key)` pairs. -/

/-- Modelled from the spec: Revision (§3) — an opaque, totally ordered,
monotonically increasing integer; one global instance per database. -/
abbrev Revision := Nat

/-- Modelled from the spec: InputCell (§3) — holds `value` and `changed_at`. -/
structure InputCell (V : Type) where
  value : V
  changed_at : Revision
deriving DecidableEq

/-- Modelled from the spec: DependencyRef (§3) — a tagged reference to either
an InputCell or a MemoEntry, plus the `changed_at` revision observed at the
time it was read. -/
inductive DependencyRef (Q K I : Type) where
  | input (i : I) (changed_at : Revision)
  | memo (q : Q) (k : K) (changed_at : Revision)
deriving DecidableEq

/-- Modelled from the spec: MemoEntry (§3) — value, `verified_at`,
`changed_at` and the ordered dependency list recorded during the last
successful computation.  The `NotComputed` state is the absence of the entry
in the table; `InProgress` is membership of the cycle-guard stack (sequential
model); `Verified`/`Outdated` are determined by `verified_at` versus the
current revision. -/
structure MemoEntry (V Q K I : Type) where
  value : V
  verified_at : Revision
  changed_at : Revision
  dependencies : List (DependencyRef Q K I)
deriving DecidableEq

/-- Modelled from the spec: the database (§2, §3) — the Revision Clock, the
Input Cell Store, the Memo Table, and the per-query execution counter the
spec's testable properties are phrased in ("verified via an execution
counter", §8). -/
structure EngineDB (V Q K I : Type) where
  rev : Revision
  inputs : I → Option (InputCell V)
  memos : Q → K → Option (MemoEntry V Q K I)
  execCount : Q → K → Nat

def EngineDB.setInput {V Q K I : Type} [DecidableEq I]
    (db : EngineDB V Q K I) (i : I) (c : InputCell V) : EngineDB V Q K I :=
  { db with inputs := fun j => if j = i then some c else db.inputs j }

def EngineDB.setMemo {V Q K I : Type} [DecidableEq Q] [DecidableEq K]
    (db : EngineDB V Q K I) (q : Q) (k : K) (e : MemoEntry V Q K I) : EngineDB V Q K I :=
  { db with memos := fun q' k' => if q' = q ∧ k' = k then some e else db.memos q' k' }

def EngineDB.bumpExec {V Q K I : Type} [DecidableEq Q] [DecidableEq K]
    (db : EngineDB V Q K I) (q : Q) (k : K) : EngineDB V Q K I :=
  { db with execCount := fun q' k' =>
      if q' = q ∧ k' = k then db.execCount q' k' + 1 else db.execCount q' k' }

/-- Modelled from the spec: one cell write of a batch (§4.1) — compare the new
value to the old with value equality; if equal leave `changed_at` untouched
(no invalidation); if different (or the cell is created by its first write)
stamp it with the batch revision `r`. -/
def writeCell {V Q K I : Type} [DecidableEq I] [DecidableEq V]
    (r : Revision) (db : EngineDB V Q K I) (iv : I × V) : EngineDB V Q K I :=
  match db.inputs iv.1 with
  | some cell => if iv.2 = cell.value then db else db.setInput iv.1 ⟨iv.2, r⟩
  | none => db.setInput iv.1 ⟨iv.2, r⟩

/-- Modelled from the spec: a write batch (§4.1, §3) — bumps the global
Revision Clock exactly once, then applies every cell write of the batch
stamped with that one new revision. -/
def write_batch {V Q K I : Type} [DecidableEq I] [DecidableEq V]
    (db : EngineDB V Q K I) (writes : List (I × V)) : EngineDB V Q K I :=
  writes.foldl (writeCell (db.rev + 1)) { db with rev := db.rev + 1 }

/-- Modelled from the spec: a query body (§3, §6) — a pure computation whose
only effects are the reads the Dependency Recorder captures (input cells and
nested query calls), plus `fail` for a body that raises an error (§7,
QueryBodyError). -/
inductive QueryComp (V Q K I : Type) where
  | pure (v : V)
  | readInput (i : I) (cont : V → QueryComp V Q K I)
  | call (q : Q) (key : K) (cont : V → QueryComp V Q K I)
  | fail

/-- Modelled from the spec: the error taxonomy (§7) — `cycle` is
`CycleError`, `queryBody` is `QueryBodyError`, `inputUnavailable` is
`InputUnavailable`; `fuelExhausted` is an artifact of the fuel-based model of
the in-principle-nonterminating evaluator. -/
inductive EvalError where
  | cycle
  | fuelExhausted
  | inputUnavailable
  | queryBody
deriving DecidableEq

/-- Modelled from the spec: executing a query body under a fresh Dependency
Recorder (§4.2 step 6) — interprets the body, logging every input read and
every nested call in order together with the `changed_at` observed at read
time.  `eval1` is the engine's recursive entry point for nested calls. -/
def runBody {V Q K I : Type}
    (eval1 : Q → K → EngineDB V Q K I → Except EvalError V × EngineDB V Q K I) :
    QueryComp V Q K I → EngineDB V Q K I → List (DependencyRef Q K I) →
    Except EvalError V × EngineDB V Q K I × List (DependencyRef Q K I)
  | QueryComp.pure v, db, deps => (Except.ok v, db, deps)
  | QueryComp.fail, db, deps => (Except.error EvalError.queryBody, db, deps)
  | QueryComp.readInput i cont, db, deps =>
      match db.inputs i with
      | none => (Except.error EvalError.inputUnavailable, db, deps)
      | some cell =>
          runBody eval1 (cont cell.value) db (deps ++ [DependencyRef.input i cell.changed_at])
  | QueryComp.call q key cont, db, deps =>
      match eval1 q key db with
      | (Except.error e, db') => (Except.error e, db', deps)
      | (Except.ok v, db') =>
          runBody eval1 (cont v) db'
            (deps ++ [DependencyRef.memo q key (match db'.memos q key with
              | some entry => entry.changed_at
              | none => 0)])

/-- Modelled from the spec: transitive validation (§4.2 step 5) — walk the
recorded dependencies in order; an input dependency is checked by direct
lookup, a memo dependency by recursively evaluating it and comparing its
current `changed_at` with the one observed at record time; the walk stops at
the first changed dependency (`ok false` = outdated) and reports `ok true`
when every dependency checks out unchanged. -/
def validateDeps {V Q K I : Type}
    (eval1 : Q → K → EngineDB V Q K I → Except EvalError V × EngineDB V Q K I) :
    List (DependencyRef Q K I) → EngineDB V Q K I →
    Except EvalError Bool × EngineDB V Q K I
  | [], db => (Except.ok true, db)
  | DependencyRef.input i r :: rest, db =>
      match db.inputs i with
      | none => (Except.error EvalError.inputUnavailable, db)
      | some cell =>
          if r < cell.changed_at then (Except.ok false, db)
          else validateDeps eval1 rest db
  | DependencyRef.memo q k r :: rest, db =>
      match eval1 q k db with
      | (Except.error e, db') => (Except.error e, db')
      | (Except.ok _, db') =>
          match db'.memos q k with
          | none => (Except.ok false, db')
          | some entry =>
              if r < entry.changed_at then (Except.ok false, db')
              else validateDeps eval1 rest db'

/-- Modelled from the spec: recomputation (§4.2 step 6) — bump the execution
counter, run the body with a fresh Dependency Recorder, compare the new output
to the previously cached value with value equality: if equal keep the old
`changed_at` (backdating), if different (or there was no previous value) set
`changed_at` to the current revision; set `verified_at` to the current
revision and replace the dependency list.  A body error leaves the entry
untouched (§4.2 error conditions). -/
def recompute {V Q K I : Type} [DecidableEq V] [DecidableEq Q] [DecidableEq K]
    (eval1 : Q → K → EngineDB V Q K I → Except EvalError V × EngineDB V Q K I)
    (body : Q → K → QueryComp V Q K I) (q : Q) (k : K) (db : EngineDB V Q K I) :
    Except EvalError V × EngineDB V Q K I :=
  match runBody eval1 (body q k) (db.bumpExec q k) [] with
  | (Except.error e, db2, _) => (Except.error e, db2)
  | (Except.ok v, db2, deps) =>
      (Except.ok v, db2.setMemo q k
        ⟨v, db2.rev,
          (match db2.memos q k with
            | some old => if v = old.value then old.changed_at else db2.rev
            | none => db2.rev),
          deps⟩)

/-- Modelled from the spec: `evaluate(query_id, args)` (§4.2 steps 1-6),
sequential model — the cycle-guard stack check (step 3), the
already-verified early return (step 4), transitive validation with early
cutoff (step 5) and recomputation (step 6).  `fuel` bounds the recursion
depth; nested calls and dependency validation run with one unit less. -/
def evaluate {V Q K I : Type} [DecidableEq V] [DecidableEq Q] [DecidableEq K] [DecidableEq I]
    (body : Q → K → QueryComp V Q K I) :
    Nat → List (Q × K) → Q → K → EngineDB V Q K I →
    Except EvalError V × EngineDB V Q K I
  | 0, _, _, _, db => (Except.error EvalError.fuelExhausted, db)
  | fuel + 1, stack, q, k, db =>
      if (q, k) ∈ stack then (Except.error EvalError.cycle, db)
      else
        match db.memos q k with
        | none => recompute (evaluate body fuel ((q, k) :: stack)) body q k db
        | some entry =>
            if entry.verified_at = db.rev then (Except.ok entry.value, db)
            else
              match validateDeps (evaluate body fuel stack) entry.dependencies db with
              | (Except.error e, db') => (Except.error e, db')
              | (Except.ok true, db') =>
                  (Except.ok entry.value, db'.setMemo q k { entry with verified_at := db'.rev })
              | (Except.ok false, db') =>
                  recompute (evaluate body fuel ((q, k) :: stack)) body q k db'

/-- A sequence of further `evaluate` calls (each with its own fuel, query and
key), applied for their effect on the database: the activity that may happen
between the two calls claim C1 speaks about. -/
def evalMany {V Q K I : Type} [DecidableEq V] [DecidableEq Q] [DecidableEq K] [DecidableEq I]
    (body : Q → K → QueryComp V Q K I) (calls : List (Nat × Q × K))
    (db : EngineDB V Q K I) : EngineDB V Q K I :=
  calls.foldl (fun db c => (evaluate body c.1 [] c.2.1 c.2.2 db).2) db

/-! ### Basic facts about the database operations -/

theorem setMemo_rev {V Q K I : Type} [DecidableEq Q] [DecidableEq K]
    (db : EngineDB V Q K I) (q : Q) (k : K) (e : MemoEntry V Q K I) :
    (db.setMemo q k e).rev = db.rev := rfl

theorem setMemo_inputs {V Q K I : Type} [DecidableEq Q] [DecidableEq K]
    (db : EngineDB V Q K I) (q : Q) (k : K) (e : MemoEntry V Q K I) :
    (db.setMemo q k e).inputs = db.inputs := rfl

theorem setMemo_execCount {V Q K I : Type} [DecidableEq Q] [DecidableEq K]
    (db : EngineDB V Q K I) (q : Q) (k : K) (e : MemoEntry V Q K I) :
    (db.setMemo q k e).execCount = db.execCount := rfl

theorem setMemo_memos_self {V Q K I : Type} [DecidableEq Q] [DecidableEq K]
    (db : EngineDB V Q K I) (q : Q) (k : K) (e : MemoEntry V Q K I) :
    (db.setMemo q k e).memos q k = some e := by
  simp [EngineDB.setMemo]

theorem setMemo_memos_other {V Q K I : Type} [DecidableEq Q] [DecidableEq K]
    (db : EngineDB V Q K I) (q : Q) (k : K) (e : MemoEntry V Q K I)
    (q' : Q) (k' : K) (h : ¬(q' = q ∧ k' = k)) :
    (db.setMemo q k e).memos q' k' = db.memos q' k' := by
  simp [EngineDB.setMemo, h]

theorem bumpExec_rev {V Q K I : Type} [DecidableEq Q] [DecidableEq K]
    (db : EngineDB V Q K I) (q : Q) (k : K) :
    (db.bumpExec q k).rev = db.rev := rfl

theorem bumpExec_inputs {V Q K I : Type} [DecidableEq Q] [DecidableEq K]
    (db : EngineDB V Q K I) (q : Q) (k : K) :
    (db.bumpExec q k).inputs = db.inputs := rfl

theorem bumpExec_memos {V Q K I : Type} [DecidableEq Q] [DecidableEq K]
    (db : EngineDB V Q K I) (q : Q) (k : K) :
    (db.bumpExec q k).memos = db.memos := rfl

theorem bumpExec_execCount_self {V Q K I : Type} [DecidableEq Q] [DecidableEq K]
    (db : EngineDB V Q K I) (q : Q) (k : K) :
    (db.bumpExec q k).execCount q k = db.execCount q k + 1 := by
  simp [EngineDB.bumpExec]

theorem bumpExec_execCount_other {V Q K I : Type} [DecidableEq Q] [DecidableEq K]
    (db : EngineDB V Q K I) (q : Q) (k : K) (q' : Q) (k' : K)
    (h : ¬(q' = q ∧ k' = k)) :
    (db.bumpExec q k).execCount q' k' = db.execCount q' k' := by
  simp [EngineDB.bumpExec, h]

/-! ### Generic preservation of database predicates -/

/-- Any database predicate preserved by the nested-call evaluator is preserved
by running a query body. -/
theorem runBody_preserve {V Q K I : Type} {P : EngineDB V Q K I → Prop}
    {eval1 : Q → K → EngineDB V Q K I → Except EvalError V × EngineDB V Q K I}
    (h1 : ∀ q k db, P db → P (eval1 q k db).2) :
    ∀ (c : QueryComp V Q K I) (db : EngineDB V Q K I) (deps : List (DependencyRef Q K I)),
      P db → P (runBody eval1 c db deps).2.1 := by
  intro c
  induction c with
  | pure v => intro db deps h; exact h
  | fail => intro db deps h; exact h
  | readInput i cont ih =>
      intro db deps h
      simp only [runBody]
      cases hc : db.inputs i with
      | none => exact h
      | some cell => exact ih cell.value db _ h
  | call q key cont ih =>
      intro db deps h
      simp only [runBody]
      have hP : P (eval1 q key db).2 := h1 q key db h
      rcases he : eval1 q key db with ⟨res, db'⟩
      rw [he] at hP
      cases res with
      | error e => exact hP
      | ok v => exact ih v db' _ hP

/-- Any database predicate preserved by the nested-call evaluator is preserved
by dependency validation. -/
theorem validateDeps_preserve {V Q K I : Type} {P : EngineDB V Q K I → Prop}
    {eval1 : Q → K → EngineDB V Q K I → Except EvalError V × EngineDB V Q K I}
    (h1 : ∀ q k db, P db → P (eval1 q k db).2) :
    ∀ (deps : List (DependencyRef Q K I)) (db : EngineDB V Q K I),
      P db → P (validateDeps eval1 deps db).2 := by
  intro deps
  induction deps with
  | nil => intro db h; exact h
  | cons d rest ih =>
      intro db h
      cases d with
      | input i r =>
          simp only [validateDeps]
          cases hc : db.inputs i with
          | none => exact h
          | some cell =>
              by_cases hr : r < cell.changed_at
              · simp only [hr, if_true]; exact h
              · simp only [hr, if_false]; exact ih db h
      | memo q k r =>
          simp only [validateDeps]
          have hP : P (eval1 q k db).2 := h1 q k db h
          split
          case _ e db' he => rw [he] at hP; exact hP
          case _ v db' he =>
              rw [he] at hP
              split
              · exact hP
              · split
                · exact hP
                · exact ih db' hP

theorem recompute_rev {V Q K I : Type} [DecidableEq V] [DecidableEq Q] [DecidableEq K]
    (eval1 : Q → K → EngineDB V Q K I → Except EvalError V × EngineDB V Q K I)
    (body : Q → K → QueryComp V Q K I) (q : Q) (k : K) (db : EngineDB V Q K I)
    (h1 : ∀ q' k' d, (eval1 q' k' d).2.rev = d.rev) :
    (recompute eval1 body q k db).2.rev = db.rev := by
  have hP := runBody_preserve (P := fun d => d.rev = db.rev)
    (fun q' k' d hd => (h1 q' k' d).trans hd) (body q k) (db.bumpExec q k) [] rfl
  unfold recompute
  split
  case _ e db2 deps heq => rw [heq] at hP; exact hP
  case _ v db2 deps heq => rw [heq] at hP; exact hP

/-- `evaluate` never touches the Revision Clock: only input writes do. -/
theorem evaluate_rev {V Q K I : Type} [DecidableEq V] [DecidableEq Q] [DecidableEq K] [DecidableEq I]
    (body : Q → K → QueryComp V Q K I) :
    ∀ (fuel : Nat) (stack : List (Q × K)) (q : Q) (k : K) (db : EngineDB V Q K I),
      (evaluate body fuel stack q k db).2.rev = db.rev := by
  intro fuel
  induction fuel with
  | zero => intro stack q k db; rfl
  | succ fuel ih =>
      intro stack q k db
      simp only [evaluate]
      by_cases hmem : (q, k) ∈ stack
      · rw [if_pos hmem]
      · rw [if_neg hmem]
        split
        case _ hm =>
            exact recompute_rev _ body q k db (fun q' k' d => ih ((q, k) :: stack) q' k' d)
        case _ entry hm =>
            by_cases hv : entry.verified_at = db.rev
            · rw [if_pos hv]
            · rw [if_neg hv]
              have hval := validateDeps_preserve (P := fun d => d.rev = db.rev)
                (fun q' k' d hd => (ih stack q' k' d).trans hd) entry.dependencies db rfl
              split
              case _ e db' heq => rw [heq] at hval; exact hval
              case _ db' heq => rw [heq] at hval; rw [setMemo_rev]; exact hval
              case _ db' heq =>
                  rw [heq] at hval
                  exact (recompute_rev _ body q k db'
                    (fun q' k' d => ih ((q, k) :: stack) q' k' d)).trans hval

theorem recompute_protect {V Q K I : Type} [DecidableEq V] [DecidableEq Q] [DecidableEq K]
    (eval1 : Q → K → EngineDB V Q K I → Except EvalError V × EngineDB V Q K I)
    (body : Q → K → QueryComp V Q K I) (q : Q) (k : K) (q0 : Q) (k0 : K)
    (db : EngineDB V Q K I) (hne : ¬(q0 = q ∧ k0 = k))
    (h1 : ∀ q' k' d,
      (d.memos q0 k0 = db.memos q0 k0 ∧ d.execCount q0 k0 = db.execCount q0 k0
        ∧ d.rev = db.rev) →
      ((eval1 q' k' d).2.memos q0 k0 = db.memos q0 k0
        ∧ (eval1 q' k' d).2.execCount q0 k0 = db.execCount q0 k0
        ∧ (eval1 q' k' d).2.rev = db.rev)) :
    (recompute eval1 body q k db).2.memos q0 k0 = db.memos q0 k0
    ∧ (recompute eval1 body q k db).2.execCount q0 k0 = db.execCount q0 k0
    ∧ (recompute eval1 body q k db).2.rev = db.rev := by
  have hP := runBody_preserve
    (P := fun d => d.memos q0 k0 = db.memos q0 k0
      ∧ d.execCount q0 k0 = db.execCount q0 k0 ∧ d.rev = db.rev)
    h1 (body q k) (db.bumpExec q k) []
    ⟨rfl, bumpExec_execCount_other db q k q0 k0 hne, rfl⟩
  unfold recompute
  split
  case _ e db2 deps heq => rw [heq] at hP; exact hP
  case _ v db2 deps heq =>
      rw [heq] at hP
      exact ⟨(setMemo_memos_other db2 q k _ q0 k0 hne).trans hP.1,
        hP.2.1, hP.2.2⟩

/-- Protection: an entry that is on the cycle-guard stack (in progress), or
that is already verified at the current revision, is not modified (and its
execution counter not bumped) by any evaluation. -/
theorem evaluate_protect {V Q K I : Type} [DecidableEq V] [DecidableEq Q] [DecidableEq K] [DecidableEq I]
    (body : Q → K → QueryComp V Q K I) (q0 : Q) (k0 : K) :
    ∀ (fuel : Nat) (stack : List (Q × K)) (q : Q) (k : K) (db : EngineDB V Q K I),
      ((q0, k0) ∈ stack ∨ ∃ e, db.memos q0 k0 = some e ∧ e.verified_at = db.rev) →
      (evaluate body fuel stack q k db).2.memos q0 k0 = db.memos q0 k0
      ∧ (evaluate body fuel stack q k db).2.execCount q0 k0 = db.execCount q0 k0 := by
  intro fuel
  induction fuel with
  | zero => intro stack q k db _; exact ⟨rfl, rfl⟩
  | succ fuel ih =>
      intro stack q k db hprot
      have hstep : ∀ (st : List (Q × K)), ((q0, k0) ∈ stack → (q0, k0) ∈ st) →
          ∀ q' k' d,
            (d.memos q0 k0 = db.memos q0 k0 ∧ d.execCount q0 k0 = db.execCount q0 k0
              ∧ d.rev = db.rev) →
            ((evaluate body fuel st q' k' d).2.memos q0 k0 = db.memos q0 k0
              ∧ (evaluate body fuel st q' k' d).2.execCount q0 k0 = db.execCount q0 k0
              ∧ (evaluate body fuel st q' k' d).2.rev = db.rev) := by
        intro st hsub q' k' d hd
        have hprot' : (q0, k0) ∈ st ∨ ∃ e, d.memos q0 k0 = some e ∧ e.verified_at = d.rev := by
          rcases hprot with hmem | ⟨e, he, hv⟩
          · exact Or.inl (hsub hmem)
          · exact Or.inr ⟨e, hd.1.trans he, hv.trans hd.2.2.symm⟩
        have := ih st q' k' d hprot'
        exact ⟨this.1.trans hd.1, this.2.trans hd.2.1,
          (evaluate_rev body fuel st q' k' d).trans hd.2.2⟩
      simp only [evaluate]
      by_cases hmem : (q, k) ∈ stack
      · rw [if_pos hmem]; exact ⟨rfl, rfl⟩
      · rw [if_neg hmem]
        split
        case _ hm =>
            have hne : ¬(q0 = q ∧ k0 = k) := by
              rintro ⟨rfl, rfl⟩
              rcases hprot with hmem0 | ⟨e, he, _⟩
              · exact hmem hmem0
              · rw [hm] at he; exact Option.noConfusion he
            have := recompute_protect _ body q k q0 k0 db hne
              (hstep ((q, k) :: stack) (fun h => List.mem_cons_of_mem _ h))
            exact ⟨this.1, this.2.1⟩
        case _ entry hm =>
            by_cases hv : entry.verified_at = db.rev
            · rw [if_pos hv]; exact ⟨rfl, rfl⟩
            · rw [if_neg hv]
              have hne : ¬(q0 = q ∧ k0 = k) := by
                rintro ⟨rfl, rfl⟩
                rcases hprot with hmem0 | ⟨e, he, hve⟩
                · exact hmem hmem0
                · rw [hm] at he
                  exact hv (Option.some.inj he ▸ hve)
              have hval := validateDeps_preserve
                (P := fun d => d.memos q0 k0 = db.memos q0 k0
                  ∧ d.execCount q0 k0 = db.execCount q0 k0 ∧ d.rev = db.rev)
                (hstep stack (fun h => h)) entry.dependencies db ⟨rfl, rfl, rfl⟩
              split
              case _ e db' heq => rw [heq] at hval; exact ⟨hval.1, hval.2.1⟩
              case _ db' heq =>
                  rw [heq] at hval
                  exact ⟨(setMemo_memos_other db' q k _ q0 k0 hne).trans hval.1, hval.2.1⟩
              case _ db' heq =>
                  rw [heq] at hval
                  have hrec := recompute_protect _ body q k q0 k0 db' hne
                    (fun q' k' d hd =>
                      have hd' : d.memos q0 k0 = db.memos q0 k0
                          ∧ d.execCount q0 k0 = db.execCount q0 k0 ∧ d.rev = db.rev :=
                        ⟨hd.1.trans hval.1, hd.2.1.trans hval.2.1, hd.2.2.trans hval.2.2⟩
                      have h := hstep ((q, k) :: stack)
                        (fun h => List.mem_cons_of_mem _ h) q' k' d hd'
                      ⟨h.1.trans hval.1.symm, h.2.1.trans hval.2.1.symm,
                        h.2.2.trans hval.2.2.symm⟩)
                  exact ⟨hrec.1.trans hval.1, hrec.2.1.trans hval.2.1⟩


theorem recompute_post {V Q K I : Type} [DecidableEq V] [DecidableEq Q] [DecidableEq K]
    (eval1 : Q → K → EngineDB V Q K I → Except EvalError V × EngineDB V Q K I)
    (body : Q → K → QueryComp V Q K I) (q : Q) (k : K) (db : EngineDB V Q K I)
    (v : V) (db2 : EngineDB V Q K I)
    (h : recompute eval1 body q k db = (Except.ok v, db2)) :
    ∃ e, db2.memos q k = some e ∧ e.value = v ∧ e.verified_at = db2.rev := by
  unfold recompute at h
  split at h
  case _ e db' deps heq =>
      exact absurd (congrArg Prod.fst h) (by simp)
  case _ v' db' deps heq =>
      have h1 : v' = v := by
        have := congrArg Prod.fst h
        simpa using this
      have h2 : db'.setMemo q k
          ⟨v', db'.rev,
            (match db'.memos q k with
              | some old => if v' = old.value then old.changed_at else db'.rev
              | none => db'.rev),
            deps⟩ = db2 := congrArg Prod.snd h
      subst h1
      subst h2
      exact ⟨_, setMemo_memos_self db' q k _, rfl, rfl⟩

/-- A successful `evaluate` leaves a memo entry holding the returned value,
verified at the (unchanged) current revision. -/
theorem evaluate_post {V Q K I : Type} [DecidableEq V] [DecidableEq Q] [DecidableEq K] [DecidableEq I]
    (body : Q → K → QueryComp V Q K I) (fuel : Nat) (stack : List (Q × K))
    (q : Q) (k : K) (db : EngineDB V Q K I) (v : V) (db' : EngineDB V Q K I)
    (h : evaluate body fuel stack q k db = (Except.ok v, db')) :
    ∃ e, db'.memos q k = some e ∧ e.value = v ∧ e.verified_at = db'.rev := by
  cases fuel with
  | zero => exact absurd (congrArg Prod.fst h) (by simp [evaluate])
  | succ fuel =>
      simp only [evaluate] at h
      by_cases hmem : (q, k) ∈ stack
      · rw [if_pos hmem] at h
        exact absurd (congrArg Prod.fst h) (by simp)
      · rw [if_neg hmem] at h
        split at h
        case _ hm => exact recompute_post _ body q k db v db' h
        case _ entry hm =>
            split at h
            case _ hv =>
                have h1 : entry.value = v := by
                  have := congrArg Prod.fst h
                  simpa using this
                have h2 : db = db' := congrArg Prod.snd h
                subst h2
                exact ⟨entry, hm, h1, hv⟩
            case _ hv =>
                split at h
                case _ e dbv heq =>
                    exact absurd (congrArg Prod.fst h) (by simp)
                case _ dbv heq =>
                    have h1 : entry.value = v := by
                      have := congrArg Prod.fst h
                      simpa using this
                    have h2 : dbv.setMemo q k { entry with verified_at := dbv.rev } = db' :=
                      congrArg Prod.snd h
                    subst h2
                    exact ⟨_, setMemo_memos_self dbv q k _, h1, rfl⟩
                case _ dbv heq =>
                    exact recompute_post _ body q k dbv v db' h

/-- Step-4 early return: an entry already verified at the current revision is
returned as is, with no change at all to the database. -/
theorem evaluate_verified {V Q K I : Type} [DecidableEq V] [DecidableEq Q] [DecidableEq K] [DecidableEq I]
    (body : Q → K → QueryComp V Q K I) (fuel : Nat) (stack : List (Q × K))
    (q : Q) (k : K) (db : EngineDB V Q K I) (e : MemoEntry V Q K I)
    (hmem : (q, k) ∉ stack) (h : db.memos q k = some e) (hv : e.verified_at = db.rev) :
    evaluate body (fuel + 1) stack q k db = (Except.ok e.value, db) := by
  simp only [evaluate]
  rw [if_neg hmem]
  split
  case _ hm => rw [h] at hm; exact Option.noConfusion hm
  case _ entry hm =>
      rw [h] at hm
      obtain rfl : entry = e := (Option.some.inj hm).symm
      rw [if_pos hv]

/-- Any sequence of further evaluations leaves a verified-at-current-revision
entry, its execution counter and the revision untouched. -/
theorem evalMany_protect {V Q K I : Type} [DecidableEq V] [DecidableEq Q] [DecidableEq K] [DecidableEq I]
    (body : Q → K → QueryComp V Q K I) (q0 : Q) (k0 : K) (calls : List (Nat × Q × K)) :
    ∀ (db : EngineDB V Q K I),
      (∃ e, db.memos q0 k0 = some e ∧ e.verified_at = db.rev) →
      (evalMany body calls db).memos q0 k0 = db.memos q0 k0
      ∧ (evalMany body calls db).execCount q0 k0 = db.execCount q0 k0
      ∧ (evalMany body calls db).rev = db.rev := by
  induction calls with
  | nil => intro db _; exact ⟨rfl, rfl, rfl⟩
  | cons c rest ih =>
      intro db hfro
      have hone := evaluate_protect body q0 k0 c.1 [] c.2.1 c.2.2 db (Or.inr hfro)
      have hrev := evaluate_rev body c.1 [] c.2.1 c.2.2 db
      have hfro' : ∃ e, (evaluate body c.1 [] c.2.1 c.2.2 db).2.memos q0 k0 = some e
          ∧ e.verified_at = (evaluate body c.1 [] c.2.1 c.2.2 db).2.rev := by
        obtain ⟨e, he, hv⟩ := hfro
        exact ⟨e, hone.1.trans he, hv.trans hrev.symm⟩
      have := ih (evaluate body c.1 [] c.2.1 c.2.2 db).2 hfro'
      refine ⟨?_, ?_, ?_⟩
      · show (evalMany body rest (evaluate body c.1 [] c.2.1 c.2.2 db).2).memos q0 k0
          = db.memos q0 k0
        exact this.1.trans hone.1
      · show (evalMany body rest (evaluate body c.1 [] c.2.1 c.2.2 db).2).execCount q0 k0
          = db.execCount q0 k0
        exact this.2.1.trans hone.2
      · show (evalMany body rest (evaluate body c.1 [] c.2.1 c.2.2 db).2).rev = db.rev
        exact this.2.2.trans hrev

/-- C1 (cache stability): once a query has been evaluated successfully, and no
input cell is written afterwards (only further evaluations, `evalMany`,
happen), a second call with the same query and arguments returns the same
value, leaves the database completely unchanged, and the query body has not
been executed again at any point since the first call (the execution counter
of the key is unchanged). -/
theorem cache_stability {V Q K I : Type} [DecidableEq V] [DecidableEq Q] [DecidableEq K] [DecidableEq I]
    (body : Q → K → QueryComp V Q K I) (fuel fuel' : Nat) (q : Q) (k : K)
    (db : EngineDB V Q K I) (v : V) (calls : List (Nat × Q × K))
    (h : (evaluate body fuel [] q k db).1 = Except.ok v) :
    evaluate body (fuel' + 1) [] q k (evalMany body calls (evaluate body fuel [] q k db).2)
      = (Except.ok v, evalMany body calls (evaluate body fuel [] q k db).2)
    ∧ (evalMany body calls (evaluate body fuel [] q k db).2).execCount q k
      = (evaluate body fuel [] q k db).2.execCount q k := by
  have hfull : evaluate body fuel [] q k db
      = (Except.ok v, (evaluate body fuel [] q k db).2) :=
    Prod.ext_iff.mpr ⟨h, rfl⟩
  obtain ⟨e, he, hev, hever⟩ :=
    evaluate_post body fuel [] q k db v (evaluate body fuel [] q k db).2 hfull
  have hmany := evalMany_protect body q k calls (evaluate body fuel [] q k db).2 ⟨e, he, hever⟩
  have hcall := evaluate_verified body fuel' []
    q k (evalMany body calls (evaluate body fuel [] q k db).2) e
    (by simp) (hmany.1.trans he) (hever.trans hmany.2.2.symm)
  exact ⟨by rw [hcall, hev], hmany.2.1⟩

/-- A one-input, one-query instance used by the witnesses. -/
def unitBody : Unit → Unit → QueryComp Nat Unit Unit Unit :=
  fun _ _ => QueryComp.readInput () QueryComp.pure

/-- A concrete database for the witnesses: revision 0, one input cell holding
5 (changed at revision 0), empty memo table, all counters 0. -/
def unitDB : EngineDB Nat Unit Unit Unit :=
  ⟨0, fun _ => some ⟨5, 0⟩, fun _ _ => none, fun _ _ => 0⟩

/-- Witness for C1 at a concrete input. -/
theorem cache_stability_witness :
    evaluate unitBody 3 [] () () (evalMany unitBody [] (evaluate unitBody 2 [] () () unitDB).2)
      = (Except.ok 5, evalMany unitBody [] (evaluate unitBody 2 [] () () unitDB).2)
    ∧ (evalMany unitBody [] (evaluate unitBody 2 [] () () unitDB).2).execCount () ()
      = (evaluate unitBody 2 [] () () unitDB).2.execCount () () :=
  cache_stability unitBody 2 2 () () unitDB 5 [] rfl

/-- C2 (backdating and early cutoff at recomputation): when a memo entry is
recomputed, (a) if the newly computed output equals the previously cached
value under value equality, the rewritten entry keeps the old `changed_at`;
(b) if it differs, `changed_at` is set to the current revision; and (c) a
dependent whose recorded dependencies all validate as unchanged (which is
exactly what backdating guarantees after such a recomputation) returns its
cached value by the early-cutoff path, without its body being recomputed —
the only change to it is the `verified_at` timestamp. -/
theorem early_cutoff_backdating {V Q K I : Type} [DecidableEq V] [DecidableEq Q] [DecidableEq K] [DecidableEq I] :
    (∀ (eval1 : Q → K → EngineDB V Q K I → Except EvalError V × EngineDB V Q K I)
      (body : Q → K → QueryComp V Q K I) (q : Q) (k : K) (db : EngineDB V Q K I)
      (v : V) (db2 : EngineDB V Q K I) (deps : List (DependencyRef Q K I))
      (e : MemoEntry V Q K I),
      runBody eval1 (body q k) (db.bumpExec q k) [] = (Except.ok v, db2, deps) →
      db2.memos q k = some e →
      ∃ e', (recompute eval1 body q k db).2.memos q k = some e'
        ∧ e'.value = v ∧ e'.verified_at = db2.rev ∧ e'.dependencies = deps
        ∧ (v = e.value → e'.changed_at = e.changed_at)
        ∧ (v ≠ e.value → e'.changed_at = db2.rev))
    ∧ (∀ (body : Q → K → QueryComp V Q K I) (fuel : Nat) (stack : List (Q × K))
      (q : Q) (k : K) (db : EngineDB V Q K I) (entry : MemoEntry V Q K I),
      (q, k) ∉ stack →
      db.memos q k = some entry →
      entry.verified_at ≠ db.rev →
      (validateDeps (evaluate body fuel stack) entry.dependencies db).1 = Except.ok true →
      evaluate body (fuel + 1) stack q k db
        = (Except.ok entry.value,
          (validateDeps (evaluate body fuel stack) entry.dependencies db).2.setMemo q k
            { entry with
              verified_at := (validateDeps (evaluate body fuel stack) entry.dependencies db).2.rev })) := by
  constructor
  · intro eval1 body q k db v db2 deps e hrb hm
    unfold recompute
    split
    case _ e2 db2' deps2 heq =>
        have := hrb.symm.trans heq
        simp at this
    case _ v2 db2' deps2 heq =>
        have heq2 := hrb.symm.trans heq
        have hv2 : v = v2 := by
          have := congrArg (fun p => p.1) heq2
          simpa using this
        have hdb2 : db2 = db2' := by
          have := congrArg (fun p => p.2.1) heq2
          simpa using this
        have hdeps2 : deps = deps2 := by
          have := congrArg (fun p => p.2.2) heq2
          simpa using this
        subst hv2
        subst hdb2
        subst hdeps2
        refine ⟨_, setMemo_memos_self db2 q k _, rfl, rfl, rfl, ?_, ?_⟩
        · intro hvv
          show (match db2.memos q k with
            | some old => if v = old.value then old.changed_at else db2.rev
            | none => db2.rev) = e.changed_at
          rw [hm]
          simp [hvv]
        · intro hvv
          show (match db2.memos q k with
            | some old => if v = old.value then old.changed_at else db2.rev
            | none => db2.rev) = db2.rev
          rw [hm]
          simp [hvv]
  · intro body fuel stack q k db entry hmem hm hv hval
    simp only [evaluate]
    rw [if_neg hmem]
    split
    case _ heq => rw [hm] at heq; exact Option.noConfusion heq
    case _ entry2 heq =>
        rw [hm] at heq
        have he2 : entry2 = entry := (Option.some.inj heq).symm
        rw [he2]
        rw [if_neg hv]
        rcases hvd : validateDeps (evaluate body fuel stack) entry.dependencies db
          with ⟨res, db'⟩
        rw [hvd] at hval
        have hres : res = Except.ok true := by simpa using hval
        subst hres
        rfl

/-- A concrete database for the C2 witness: revision 1, a stale entry for the
one query (computed and verified at revision 0) whose dependency list is
empty, so validation trivially succeeds. -/
def staleDB : EngineDB Nat Unit Unit Unit :=
  ⟨1, fun _ => some ⟨5, 0⟩, fun _ _ => some ⟨5, 0, 0, []⟩, fun _ _ => 0⟩

/-- A body that recomputes to the same value 5 (for backdating) — used by the
C2 witness together with a nested-call evaluator stub. -/
def constBody : Unit → Unit → QueryComp Nat Unit Unit Unit :=
  fun _ _ => QueryComp.pure 5

/-- Witness for C2 at concrete inputs: recomputing the stale entry yields the
equal value 5, so the new entry keeps `changed_at = 0`; and the early-cutoff
path returns the cached value for an entry whose dependencies validate. -/
theorem early_cutoff_backdating_witness :
    (∃ e', ((recompute (evaluate constBody 1 [((), ())]) constBody () () staleDB).2.memos () ()
        = some e')
      ∧ e'.value = 5 ∧ e'.verified_at = 1 ∧ e'.dependencies = []
      ∧ (5 = (5 : Nat) → e'.changed_at = 0)
      ∧ ((5 : Nat) ≠ 5 → e'.changed_at = 1))
    ∧ evaluate constBody 1 [] () () staleDB
      = (Except.ok 5,
        (validateDeps (evaluate constBody 0 []) ([] : List (DependencyRef Unit Unit Unit))
          staleDB).2.setMemo () ()
          ⟨5, (validateDeps (evaluate constBody 0 [])
            ([] : List (DependencyRef Unit Unit Unit)) staleDB).2.rev, 0, []⟩) := by
  constructor
  · exact (early_cutoff_backdating.1) (evaluate constBody 1 [((), ())]) constBody () () staleDB
      5 (staleDB.bumpExec () ()) [] ⟨5, 0, 0, []⟩ rfl rfl
  · exact (early_cutoff_backdating.2) constBody 0 [] () () staleDB ⟨5, 0, 0, []⟩
      (by simp) rfl (by decide) rfl

theorem writeCell_rev {V Q K I : Type} [DecidableEq I] [DecidableEq V]
    (r : Revision) (db : EngineDB V Q K I) (iv : I × V) :
    (writeCell r db iv).rev = db.rev := by
  unfold writeCell
  split
  case _ cell heq =>
      split
      · rfl
      · rfl
  case _ heq => rfl

theorem writeCell_memos {V Q K I : Type} [DecidableEq I] [DecidableEq V]
    (r : Revision) (db : EngineDB V Q K I) (iv : I × V) :
    (writeCell r db iv).memos = db.memos := by
  unfold writeCell
  split
  case _ cell heq =>
      split
      · rfl
      · rfl
  case _ heq => rfl

theorem writeCell_execCount {V Q K I : Type} [DecidableEq I] [DecidableEq V]
    (r : Revision) (db : EngineDB V Q K I) (iv : I × V) :
    (writeCell r db iv).execCount = db.execCount := by
  unfold writeCell
  split
  case _ cell heq =>
      split
      · rfl
      · rfl
  case _ heq => rfl

theorem writeCell_inputs_other {V Q K I : Type} [DecidableEq I] [DecidableEq V]
    (r : Revision) (db : EngineDB V Q K I) (iv : I × V) (j : I) (hne : j ≠ iv.1) :
    (writeCell r db iv).inputs j = db.inputs j := by
  unfold writeCell
  split
  case _ cell heq =>
      split
      · rfl
      · simp [EngineDB.setInput, hne]
  case _ heq => simp [EngineDB.setInput, hne]

theorem foldl_writeCell_rev {V Q K I : Type} [DecidableEq I] [DecidableEq V]
    (r : Revision) :
    ∀ (ws : List (I × V)) (d : EngineDB V Q K I),
      (ws.foldl (writeCell r) d).rev = d.rev := by
  intro ws
  induction ws with
  | nil => intro d; rfl
  | cons iv rest ih =>
      intro d
      rw [List.foldl_cons]
      exact (ih (writeCell r d iv)).trans (writeCell_rev r d iv)

theorem foldl_writeCell_memos {V Q K I : Type} [DecidableEq I] [DecidableEq V]
    (r : Revision) :
    ∀ (ws : List (I × V)) (d : EngineDB V Q K I),
      (ws.foldl (writeCell r) d).memos = d.memos := by
  intro ws
  induction ws with
  | nil => intro d; rfl
  | cons iv rest ih =>
      intro d
      rw [List.foldl_cons]
      exact (ih (writeCell r d iv)).trans (writeCell_memos r d iv)

theorem foldl_writeCell_execCount {V Q K I : Type} [DecidableEq I] [DecidableEq V]
    (r : Revision) :
    ∀ (ws : List (I × V)) (d : EngineDB V Q K I),
      (ws.foldl (writeCell r) d).execCount = d.execCount := by
  intro ws
  induction ws with
  | nil => intro d; rfl
  | cons iv rest ih =>
      intro d
      rw [List.foldl_cons]
      exact (ih (writeCell r d iv)).trans (writeCell_execCount r d iv)

theorem foldl_writeCell_inputs_other {V Q K I : Type} [DecidableEq I] [DecidableEq V]
    (r : Revision) :
    ∀ (ws : List (I × V)) (d : EngineDB V Q K I) (i : I),
      i ∉ ws.map Prod.fst → (ws.foldl (writeCell r) d).inputs i = d.inputs i := by
  intro ws
  induction ws with
  | nil => intro d i _; rfl
  | cons iv rest ih =>
      intro d i hni
      rw [List.map_cons] at hni
      rw [List.foldl_cons]
      have hne : i ≠ iv.1 := fun h => hni (h ▸ List.mem_cons_self _ _)
      have hrest : i ∉ rest.map Prod.fst := fun h => hni (List.mem_cons_of_mem _ h)
      exact (ih (writeCell r d iv) i hrest).trans (writeCell_inputs_other r d iv i hne)

/-- The state of one cell after it is written with value `v` at batch
revision `r`: untouched when the old value equals `v`, stamped `⟨v, r⟩`
otherwise (also on creation). -/
def writeLookup {V : Type} [DecidableEq V] (r : Revision) (v : V) :
    Option (InputCell V) → Option (InputCell V)
  | some old => if v = old.value then some old else some ⟨v, r⟩
  | none => some ⟨v, r⟩

theorem foldl_writeCell_lookup {V Q K I : Type} [DecidableEq I] [DecidableEq V]
    (r : Revision) :
    ∀ (ws : List (I × V)) (d : EngineDB V Q K I),
      (ws.map Prod.fst).Nodup →
      ∀ (i : I) (v : V), (i, v) ∈ ws →
        (ws.foldl (writeCell r) d).inputs i = writeLookup r v (d.inputs i) := by
  intro ws
  induction ws with
  | nil => intro d _ i v h; exact absurd h (List.not_mem_nil _)
  | cons jw rest ih =>
      intro d hnd i v hmem
      rw [List.map_cons] at hnd
      have hnotin : jw.1 ∉ rest.map Prod.fst := (List.nodup_cons.mp hnd).1
      have hndrest : (rest.map Prod.fst).Nodup := (List.nodup_cons.mp hnd).2
      rw [List.foldl_cons]
      rcases List.mem_cons.mp hmem with heq | hmem'
      · obtain rfl : jw = (i, v) := heq.symm
        have hni : i ∉ rest.map Prod.fst := hnotin
        rw [foldl_writeCell_inputs_other r rest (writeCell r d (i, v)) i hni]
        unfold writeCell
        split
        case _ cell hc =>
            rw [hc, writeLookup]
            by_cases hv : v = cell.value
            · rw [if_pos hv, if_pos hv, hc]
            · rw [if_neg hv, if_neg hv]
              simp [EngineDB.setInput]
        case _ hc =>
            rw [hc, writeLookup]
            simp [EngineDB.setInput]
      · have hne : i ≠ jw.1 := by
          intro h
          exact hnotin (h ▸ (List.mem_map.mpr ⟨(i, v), hmem', rfl⟩))
        rw [ih (writeCell r d jw) hndrest i v hmem',
          writeCell_inputs_other r d jw i hne]

/-- C3 (input write backdating and one revision bump per batch): a write
batch bumps the Revision Clock exactly once however many cells it touches;
for each cell written with a key not repeated inside the batch, writing an
equal value leaves the cell (and hence its `changed_at`) untouched, while
writing a different value (or creating the cell) stamps `changed_at` with the
single freshly bumped revision — so all cells changed by one batch share one
`changed_at`; and a write batch touches neither the Memo Table nor the
execution counters. -/
theorem write_batch_spec {V Q K I : Type} [DecidableEq I] [DecidableEq V]
    (db : EngineDB V Q K I) (writes : List (I × V))
    (hnodup : (writes.map Prod.fst).Nodup) :
    (write_batch db writes).rev = db.rev + 1
    ∧ (∀ (i : I) (v : V), (i, v) ∈ writes →
        (∀ old, db.inputs i = some old → v = old.value →
          (write_batch db writes).inputs i = some old)
        ∧ (∀ old, db.inputs i = some old → v ≠ old.value →
          (write_batch db writes).inputs i = some ⟨v, db.rev + 1⟩)
        ∧ (db.inputs i = none →
          (write_batch db writes).inputs i = some ⟨v, db.rev + 1⟩))
    ∧ (write_batch db writes).memos = db.memos
    ∧ (write_batch db writes).execCount = db.execCount := by
  refine ⟨foldl_writeCell_rev _ writes _, ?_, foldl_writeCell_memos _ writes _,
    foldl_writeCell_execCount _ writes _⟩
  intro i v hmem
  have hlook := foldl_writeCell_lookup (db.rev + 1) writes
    { db with rev := db.rev + 1 } hnodup i v hmem
  refine ⟨?_, ?_, ?_⟩
  · intro old hold hveq
    rw [write_batch, hlook]
    show writeLookup (db.rev + 1) v (db.inputs i) = some old
    rw [hold, writeLookup, if_pos hveq]
  · intro old hold hvne
    rw [write_batch, hlook]
    show writeLookup (db.rev + 1) v (db.inputs i) = some ⟨v, db.rev + 1⟩
    rw [hold, writeLookup, if_neg hvne]
  · intro hold
    rw [write_batch, hlook]
    show writeLookup (db.rev + 1) v (db.inputs i) = some ⟨v, db.rev + 1⟩
    rw [hold, writeLookup]

/-- A concrete input store for the C3 witness: cells 1 (value 5) and 2
(value 3), both stamped at revision 0; no cell 3. -/
def natDB : EngineDB Nat Unit Unit Nat :=
  ⟨0, fun i => if i = 1 then some ⟨5, 0⟩ else if i = 2 then some ⟨3, 0⟩ else none,
    fun _ _ => none, fun _ _ => 0⟩

/-- Witness for C3 at a concrete batch: rewriting cell 1 with its old value
leaves it untouched, cell 2 and the fresh cell 3 get the one bumped revision,
and the clock is bumped exactly once for the three writes. -/
theorem write_batch_spec_witness :
    (write_batch natDB [(1, 5), (2, 7), (3, 9)]).rev = 1
    ∧ (write_batch natDB [(1, 5), (2, 7), (3, 9)]).inputs 1 = some ⟨5, 0⟩
    ∧ (write_batch natDB [(1, 5), (2, 7), (3, 9)]).inputs 2 = some ⟨7, 1⟩
    ∧ (write_batch natDB [(1, 5), (2, 7), (3, 9)]).inputs 3 = some ⟨9, 1⟩ := by
  have h := write_batch_spec natDB [(1, 5), (2, 7), (3, 9)] (by decide)
  exact ⟨h.1,
    (h.2.1 1 5 (by simp)).1 ⟨5, 0⟩ rfl rfl,
    (h.2.1 2 7 (by simp)).2.1 ⟨3, 0⟩ rfl (by decide),
    (h.2.1 3 9 (by simp)).2.2 rfl⟩

/-- C4 (cycle detection): a query whose body calls itself with the same
arguments — directly, or transitively through a second query — fails with the
cycle error (for every sufficient fuel, so the evaluator neither loops nor
recurses unboundedly), and nothing is memoized for the cyclic call: the memo
table is exactly as before (only execution counters of the started bodies
were bumped).  The error is returned to the caller, never resolved
internally. -/
theorem cycle_detection {V Q K I : Type} [DecidableEq V] [DecidableEq Q] [DecidableEq K] [DecidableEq I] :
    (∀ (body : Q → K → QueryComp V Q K I) (q : Q) (k : K)
      (cont : V → QueryComp V Q K I) (db : EngineDB V Q K I) (fuel : Nat),
      body q k = QueryComp.call q k cont →
      db.memos q k = none →
      evaluate body (fuel + 2) [] q k db = (Except.error EvalError.cycle, db.bumpExec q k)
      ∧ (db.bumpExec q k).memos = db.memos)
    ∧ (∀ (body : Q → K → QueryComp V Q K I) (qa : Q) (ka : K) (qb : Q) (kb : K)
      (conta contb : V → QueryComp V Q K I) (db : EngineDB V Q K I) (fuel : Nat),
      body qa ka = QueryComp.call qb kb contb →
      body qb kb = QueryComp.call qa ka conta →
      (qb, kb) ≠ (qa, ka) →
      db.memos qa ka = none →
      db.memos qb kb = none →
      evaluate body (fuel + 3) [] qa ka db
        = (Except.error EvalError.cycle, (db.bumpExec qa ka).bumpExec qb kb)
      ∧ ((db.bumpExec qa ka).bumpExec qb kb).memos = db.memos) := by
  constructor
  · intro body q k cont db fuel hbody hnc
    refine ⟨?_, rfl⟩
    have hinner : evaluate body (fuel + 1) ((q, k) :: []) q k (db.bumpExec q k)
        = (Except.error EvalError.cycle, db.bumpExec q k) := by
      simp only [evaluate]
      rw [if_pos (List.mem_cons_self _ _)]
    have hrun : runBody (evaluate body (fuel + 1) ((q, k) :: [])) (body q k)
        (db.bumpExec q k) [] = (Except.error EvalError.cycle, db.bumpExec q k, []) := by
      rw [hbody]
      simp only [runBody]
      rw [hinner]
    show evaluate body (fuel + 1 + 1) [] q k db = _
    simp only [evaluate]
    rw [if_neg (List.not_mem_nil _), hnc]
    show recompute (evaluate body (fuel + 1) ((q, k) :: [])) body q k db = _
    unfold recompute
    rw [hrun]
  · intro body qa ka qb kb conta contb db fuel hba hbb hne hnca hncb
    refine ⟨?_, rfl⟩
    have hinner : evaluate body (fuel + 1) ((qb, kb) :: (qa, ka) :: []) qa ka
        ((db.bumpExec qa ka).bumpExec qb kb)
        = (Except.error EvalError.cycle, (db.bumpExec qa ka).bumpExec qb kb) := by
      simp only [evaluate]
      rw [if_pos (List.mem_cons_of_mem _ (List.mem_cons_self _ _))]
    have hrunb : runBody (evaluate body (fuel + 1) ((qb, kb) :: (qa, ka) :: []))
        (body qb kb) ((db.bumpExec qa ka).bumpExec qb kb) []
        = (Except.error EvalError.cycle, (db.bumpExec qa ka).bumpExec qb kb, []) := by
      rw [hbb]
      simp only [runBody]
      rw [hinner]
    have hevalb : evaluate body (fuel + 1 + 1) ((qa, ka) :: []) qb kb (db.bumpExec qa ka)
        = (Except.error EvalError.cycle, (db.bumpExec qa ka).bumpExec qb kb) := by
      simp only [evaluate]
      rw [if_neg (by simpa using hne)]
      have hm : (db.bumpExec qa ka).memos qb kb = none := hncb
      rw [hm]
      show recompute (evaluate body (fuel + 1) ((qb, kb) :: (qa, ka) :: [])) body qb kb
        (db.bumpExec qa ka) = _
      unfold recompute
      rw [hrunb]
    have hruna : runBody (evaluate body (fuel + 1 + 1) ((qa, ka) :: []))
        (body qa ka) (db.bumpExec qa ka) []
        = (Except.error EvalError.cycle, (db.bumpExec qa ka).bumpExec qb kb, []) := by
      rw [hba]
      simp only [runBody]
      rw [hevalb]
    show evaluate body (fuel + 1 + 1 + 1) [] qa ka db = _
    simp only [evaluate]
    rw [if_neg (List.not_mem_nil _), hnca]
    show recompute (evaluate body (fuel + 1 + 1) ((qa, ka) :: [])) body qa ka db = _
    unfold recompute
    rw [hruna]

/-- A directly self-calling body on the one-query instance, for the C4
witness. -/
def selfBody : Unit → Unit → QueryComp Nat Unit Unit Unit :=
  fun _ _ => QueryComp.call () () QueryComp.pure

/-- A mutually recursive pair of queries (indexed by `Bool`), for the C4
witness. -/
def mutualBody : Bool → Unit → QueryComp Nat Bool Unit Unit :=
  fun b _ => QueryComp.call (!b) () QueryComp.pure

/-- An empty two-query database for the C4 witness. -/
def boolDB : EngineDB Nat Bool Unit Unit :=
  ⟨0, fun _ => some ⟨0, 0⟩, fun _ _ => none, fun _ _ => 0⟩

/-- Witness for C4 at concrete inputs: the direct self-call and the two-query
mutual recursion both fail with the cycle error and leave the memo table
empty. -/
theorem cycle_detection_witness :
    (evaluate selfBody 2 [] () () unitDB = (Except.error EvalError.cycle, unitDB.bumpExec () ())
      ∧ (unitDB.bumpExec () ()).memos = unitDB.memos)
    ∧ (evaluate mutualBody 3 [] true () boolDB
        = (Except.error EvalError.cycle, (boolDB.bumpExec true ()).bumpExec false ())
      ∧ ((boolDB.bumpExec true ()).bumpExec false ()).memos = boolDB.memos) :=
  ⟨cycle_detection.1 selfBody () () QueryComp.pure unitDB 0 rfl rfl,
    cycle_detection.2 mutualBody true () false () QueryComp.pure QueryComp.pure boolDB 0
      rfl rfl (by decide) rfl rfl⟩

/-- Evaluating a key with no memo entry always executes the body exactly once
(bumping the execution counter by one), and, whenever the evaluation fails,
the entry stays absent. -/
theorem evaluate_notComputed {V Q K I : Type} [DecidableEq V] [DecidableEq Q] [DecidableEq K] [DecidableEq I]
    (body : Q → K → QueryComp V Q K I) (fuel : Nat) (q : Q) (k : K)
    (db : EngineDB V Q K I) (hnc : db.memos q k = none) :
    (evaluate body (fuel + 1) [] q k db).2.execCount q k = db.execCount q k + 1
    ∧ (∀ err, (evaluate body (fuel + 1) [] q k db).1 = Except.error err →
        (evaluate body (fuel + 1) [] q k db).2.memos q k = none) := by
  have h1 : ∀ (q' : Q) (k' : K) (d : EngineDB V Q K I),
      (d.execCount q k = db.execCount q k + 1 ∧ d.memos q k = none) →
      ((evaluate body fuel ((q, k) :: []) q' k' d).2.execCount q k = db.execCount q k + 1
        ∧ (evaluate body fuel ((q, k) :: []) q' k' d).2.memos q k = none) := by
    intro q' k' d hd
    have hp := evaluate_protect body q k fuel ((q, k) :: []) q' k' d
      (Or.inl (List.mem_cons_self _ _))
    exact ⟨hp.2.trans hd.1, hp.1.trans hd.2⟩
  have hP := runBody_preserve
    (P := fun d => d.execCount q k = db.execCount q k + 1 ∧ d.memos q k = none)
    h1 (body q k) (db.bumpExec q k) []
    ⟨bumpExec_execCount_self db q k, hnc⟩
  have hgoal : evaluate body (fuel + 1) [] q k db
      = recompute (evaluate body fuel ((q, k) :: [])) body q k db := by
    simp only [evaluate]
    rw [if_neg (List.not_mem_nil _), hnc]
  rw [hgoal]
  unfold recompute
  split
  case _ e db2 deps heq =>
      rw [heq] at hP
      exact ⟨hP.1, fun _ _ => hP.2⟩
  case _ v db2 deps heq =>
      rw [heq] at hP
      refine ⟨?_, ?_⟩
      · show (db2.setMemo q k _).execCount q k = db.execCount q k + 1
        rw [setMemo_execCount]
        exact hP.1
      · intro err herr
        exact absurd herr (by simp)

/-- A recomputation (with the key on the cycle-guard stack) bumps the key's
execution counter by exactly one, and whenever it fails it leaves the key's
memo entry exactly as it was when the recomputation began. -/
theorem recompute_step {V Q K I : Type} [DecidableEq V] [DecidableEq Q] [DecidableEq K] [DecidableEq I]
    (body : Q → K → QueryComp V Q K I) (fuel : Nat) (q : Q) (k : K)
    (d : EngineDB V Q K I) :
    (recompute (evaluate body fuel ((q, k) :: [])) body q k d).2.execCount q k
      = d.execCount q k + 1
    ∧ (∀ err, (recompute (evaluate body fuel ((q, k) :: [])) body q k d).1 = Except.error err →
        (recompute (evaluate body fuel ((q, k) :: [])) body q k d).2.memos q k = d.memos q k) := by
  have h1 : ∀ (q' : Q) (k' : K) (d2 : EngineDB V Q K I),
      (d2.execCount q k = d.execCount q k + 1 ∧ d2.memos q k = d.memos q k) →
      ((evaluate body fuel ((q, k) :: []) q' k' d2).2.execCount q k = d.execCount q k + 1
        ∧ (evaluate body fuel ((q, k) :: []) q' k' d2).2.memos q k = d.memos q k) := by
    intro q' k' d2 hd
    have hp := evaluate_protect body q k fuel ((q, k) :: []) q' k' d2
      (Or.inl (List.mem_cons_self _ _))
    exact ⟨hp.2.trans hd.1, hp.1.trans hd.2⟩
  have hP := runBody_preserve
    (P := fun d2 => d2.execCount q k = d.execCount q k + 1 ∧ d2.memos q k = d.memos q k)
    h1 (body q k) (d.bumpExec q k) []
    ⟨bumpExec_execCount_self d q k, rfl⟩
  unfold recompute
  split
  case _ e db2 deps heq =>
      rw [heq] at hP
      exact ⟨hP.1, fun _ _ => hP.2⟩
  case _ v db2 deps heq =>
      rw [heq] at hP
      refine ⟨?_, ?_⟩
      · show (db2.setMemo q k _).execCount q k = d.execCount q k + 1
        rw [setMemo_execCount]
        exact hP.1
      · intro err herr
        exact absurd herr (by simp)

/-- An evaluation of an existing stale entry whose dependency validation
reports "outdated" takes the recomputation path, applied to the
post-validation database. -/
theorem evaluate_outdated {V Q K I : Type} [DecidableEq V] [DecidableEq Q] [DecidableEq K] [DecidableEq I]
    (body : Q → K → QueryComp V Q K I) (fuel : Nat) (q : Q) (k : K)
    (db : EngineDB V Q K I) (entry : MemoEntry V Q K I)
    (h1 : db.memos q k = some entry)
    (h2 : entry.verified_at ≠ db.rev)
    (h3 : (validateDeps (evaluate body fuel []) entry.dependencies db).1 = Except.ok false) :
    evaluate body (fuel + 1) [] q k db
      = recompute (evaluate body fuel ((q, k) :: [])) body q k
          (validateDeps (evaluate body fuel []) entry.dependencies db).2 := by
  simp only [evaluate]
  rw [if_neg (List.not_mem_nil _)]
  split
  case _ heq => rw [h1] at heq; exact Option.noConfusion heq
  case _ entry2 heq =>
      rw [h1] at heq
      have he2 : entry2 = entry := (Option.some.inj heq).symm
      rw [he2]
      rw [if_neg h2]
      rcases hvd : validateDeps (evaluate body fuel []) entry.dependencies db with ⟨res, db'⟩
      rw [hvd] at h3
      have hres : res = Except.ok false := by simpa using h3
      subst hres
      rfl

/-- C5 (query-body errors are not cached), both entry states the claim names.
NotComputed: when evaluation of an uncomputed entry fails with a body error,
the error is what the caller receives, the entry remains uncomputed
(`none`), the body was executed this once, and a subsequent request executes
the body again instead of serving any cached value.  Outdated: when a stale
entry's dependency validation reports it outdated and the recomputation's
body fails, the body was executed this once, the failed computation leaves
the memo entry exactly as validation left it (no stale success is written),
and in particular whenever validation left the old entry in place the old
entry survives unchanged and, the revision being untouched, is still
outdated — so the next request revalidates and re-executes rather than
serving it. -/
theorem error_not_cached {V Q K I : Type} [DecidableEq V] [DecidableEq Q] [DecidableEq K] [DecidableEq I] :
    (∀ (body : Q → K → QueryComp V Q K I) (fuel : Nat) (q : Q) (k : K)
      (db : EngineDB V Q K I),
      db.memos q k = none →
      (evaluate body (fuel + 1) [] q k db).1 = Except.error EvalError.queryBody →
      (evaluate body (fuel + 1) [] q k db).2.memos q k = none
      ∧ (evaluate body (fuel + 1) [] q k db).2.execCount q k = db.execCount q k + 1
      ∧ (∀ fuel',
          (evaluate body (fuel' + 1) [] q k (evaluate body (fuel + 1) [] q k db).2).2.execCount q k
            = (evaluate body (fuel + 1) [] q k db).2.execCount q k + 1))
    ∧ (∀ (body : Q → K → QueryComp V Q K I) (fuel : Nat) (q : Q) (k : K)
      (db : EngineDB V Q K I) (entry : MemoEntry V Q K I),
      db.memos q k = some entry →
      entry.verified_at ≠ db.rev →
      (validateDeps (evaluate body fuel []) entry.dependencies db).1 = Except.ok false →
      (evaluate body (fuel + 1) [] q k db).2.execCount q k
        = (validateDeps (evaluate body fuel []) entry.dependencies db).2.execCount q k + 1
      ∧ ((evaluate body (fuel + 1) [] q k db).1 = Except.error EvalError.queryBody →
          (evaluate body (fuel + 1) [] q k db).2.memos q k
            = (validateDeps (evaluate body fuel []) entry.dependencies db).2.memos q k)
      ∧ ((evaluate body (fuel + 1) [] q k db).1 = Except.error EvalError.queryBody →
          (validateDeps (evaluate body fuel []) entry.dependencies db).2.memos q k
            = some entry →
          (evaluate body (fuel + 1) [] q k db).2.memos q k = some entry
          ∧ entry.verified_at ≠ (evaluate body (fuel + 1) [] q k db).2.rev)) := by
  constructor
  · intro body fuel q k db hnc herr
    have h := evaluate_notComputed body fuel q k db hnc
    have hmem : (evaluate body (fuel + 1) [] q k db).2.memos q k = none :=
      h.2 EvalError.queryBody herr
    refine ⟨hmem, h.1, ?_⟩
    intro fuel'
    exact (evaluate_notComputed body fuel' q k (evaluate body (fuel + 1) [] q k db).2 hmem).1
  · intro body fuel q k db entry h1 h2 h3
    have heval := evaluate_outdated body fuel q k db entry h1 h2 h3
    have hstep := recompute_step body fuel q k
      (validateDeps (evaluate body fuel []) entry.dependencies db).2
    refine ⟨?_, ?_, ?_⟩
    · rw [heval]
      exact hstep.1
    · intro herr
      rw [heval] at herr ⊢
      exact hstep.2 _ herr
    · intro herr hkeep
      constructor
      · rw [heval] at herr ⊢
        exact (hstep.2 _ herr).trans hkeep
      · rw [evaluate_rev body (fuel + 1) [] q k db]
        exact h2

/-- A body that always raises, for the C5 witness. -/
def failBody : Unit → Unit → QueryComp Nat Unit Unit Unit :=
  fun _ _ => QueryComp.fail

/-- A database with a stale (Outdated) entry for the one query, for the C5
witness: the entry was computed and verified at revision 0 reading the input
cell at `changed_at = 0`, but the cell has since been rewritten at revision 1,
so validation reports the entry outdated. -/
def staleFailDB : EngineDB Nat Unit Unit Unit :=
  ⟨1, fun _ => some ⟨7, 1⟩,
    fun _ _ => some ⟨5, 0, 0, [DependencyRef.input () 0]⟩,
    fun _ _ => 0⟩

/-- Witness for C5 at concrete inputs.  NotComputed: the failing body
propagates its error, stays uncached, and runs again on the retry.
Outdated: recomputing the stale entry fails, the body ran this once, and the
old stale entry survives unchanged. -/
theorem error_not_cached_witness :
    ((evaluate failBody 1 [] () () unitDB).2.memos () () = none
      ∧ (evaluate failBody 1 [] () () unitDB).2.execCount () () = unitDB.execCount () () + 1
      ∧ (evaluate failBody 1 [] () () (evaluate failBody 1 [] () () unitDB).2).2.execCount () ()
          = (evaluate failBody 1 [] () () unitDB).2.execCount () () + 1)
    ∧ ((evaluate failBody 1 [] () () staleFailDB).2.execCount () ()
        = (validateDeps (evaluate failBody 0 []) [DependencyRef.input () 0]
            staleFailDB).2.execCount () () + 1
      ∧ (evaluate failBody 1 [] () () staleFailDB).2.memos () ()
          = some ⟨5, 0, 0, [DependencyRef.input () 0]⟩) :=
  ⟨⟨(error_not_cached.1 failBody 0 () () unitDB rfl rfl).1,
    (error_not_cached.1 failBody 0 () () unitDB rfl rfl).2.1,
    (error_not_cached.1 failBody 0 () () unitDB rfl rfl).2.2 0⟩,
    (error_not_cached.2 failBody 0 () () staleFailDB
      ⟨5, 0, 0, [DependencyRef.input () 0]⟩ rfl (by decide) rfl).1,
    ((error_not_cached.2 failBody 0 () () staleFailDB
      ⟨5, 0, 0, [DependencyRef.input () 0]⟩ rfl (by decide) rfl).2.2 rfl rfl).1⟩

/-! ### The worked scenario of the spec (§8) and of
examples/incremental_test.rs: queries `square`, `double`, `add`. -/

/-- The three query identities of the scenario. -/
inductive QId where
  | square
  | double
  | add
deriving DecidableEq

/-- The query bodies of examples/incremental_test.rs (lines 52-90): `square`
reads its input number and squares it, `double` doubles it, and
`add_transformed` adds `square(n1)` to `double(n2)`.  Keys are pairs of input
ids (the second id unused by the unary queries). -/
def scenarioBody : QId → Nat × Nat → QueryComp Int QId (Nat × Nat) Nat
  | QId.square, (i, _) => QueryComp.readInput i (fun v => QueryComp.pure (v * v))
  | QId.double, (i, _) => QueryComp.readInput i (fun v => QueryComp.pure (v * 2))
  | QId.add, (i, j) =>
      QueryComp.call QId.square (i, 0) (fun s =>
        QueryComp.call QId.double (j, 0) (fun d => QueryComp.pure (s + d)))

/-- A fresh scenario database. -/
def emptyDB : EngineDB Int QId (Nat × Nat) Nat :=
  ⟨0, fun _ => none, fun _ _ => none, fun _ _ => 0⟩

/-- The scenario database after the initial batch `A = 3` (cell 1),
`B = 5` (cell 2). -/
def scenDB1 : EngineDB Int QId (Nat × Nat) Nat :=
  write_batch emptyDB [(1, 3), (2, 5)]

/-- First evaluation of `add(A, B)`. -/
def scenEval1 : Except EvalError Int × EngineDB Int QId (Nat × Nat) Nat :=
  evaluate scenarioBody 10 [] QId.add (1, 2) scenDB1

/-- The scenario database after writing `B = 7`. -/
def scenDB2 : EngineDB Int QId (Nat × Nat) Nat :=
  write_batch scenEval1.2 [(2, 7)]

/-- Second evaluation of `add(A, B)`. -/
def scenEval2 : Except EvalError Int × EngineDB Int QId (Nat × Nat) Nat :=
  evaluate scenarioBody 10 [] QId.add (1, 2) scenDB2

/-- C7 (worked scenario): with `A = 3`, `B = 5`, `square(A)` is 9 and
`add(A, B) = square(A) + double(B) = 9 + 10 = 19`; after setting `B = 7`,
`add(A, B) = 9 + 14 = 23`, and that re-evaluation recomputed `double` exactly
once and `add` exactly once while `square` was not recomputed at all (each
body had run exactly once before). -/
theorem worked_scenario :
    (evaluate scenarioBody 10 [] QId.square (1, 0) scenDB1).1 = Except.ok 9
    ∧ scenEval1.1 = Except.ok 19
    ∧ scenEval2.1 = Except.ok 23
    ∧ scenEval1.2.execCount QId.square (1, 0) = 1
    ∧ scenEval1.2.execCount QId.double (2, 0) = 1
    ∧ scenEval1.2.execCount QId.add (1, 2) = 1
    ∧ scenEval2.2.execCount QId.double (2, 0) = scenEval1.2.execCount QId.double (2, 0) + 1
    ∧ scenEval2.2.execCount QId.add (1, 2) = scenEval1.2.execCount QId.add (1, 2) + 1
    ∧ scenEval2.2.execCount QId.square (1, 0) = scenEval1.2.execCount QId.square (1, 0) :=
  ⟨rfl, rfl, rfl, rfl, rfl, rfl, rfl, rfl, rfl⟩

/-! ### Parallel fan-out (examples/parallel_stress.rs)

The aggregation tower `leaf_work` / `aggregate_10` / `aggregate_50` /
`aggregate_200` / `mega_query` / `ultra_mega_query` is embedded from the
source; `u64` arithmetic is `Nat` reduced modulo `2 ^ 64`.  A parallel
evaluation order is modelled as the list of leaf computations in completion
order: each completed leaf deposits its (memoized) result, and the aggregates
read the memo — the engine's single-flight and memoization rules make the
deposited value a pure function of the work item, which is what makes the
aggregate sum schedule-independent. -/

/-- The `u64` modulus. -/
def U64MOD : Nat := 2 ^ 64

/-- `u64` wrapping addition. -/
def u64add (a b : Nat) : Nat := (a + b) % U64MOD

/-- `leaf_work` from examples/parallel_stress.rs (lines 164-180): the
computed value is `id * weight` (in `u64`); the sleep and the concurrency
counters are out of scope.  A work item is the pair `(id, weight)`. -/
def leaf_work (id weight : Nat) : Nat := (id * weight) % U64MOD

/-- Computing the scheduled leaves in order, depositing each result in the
memo table (a recomputation overwrites with the same pure value). -/
def runLeaves : List (Nat × Nat) → ((Nat × Nat) → Option Nat) → ((Nat × Nat) → Option Nat)
  | [], m => m
  | it :: rest, m =>
      runLeaves rest (fun j => if j = it then some (leaf_work it.1 it.2) else m j)

/-- The `sum += result?` accumulation loop shared by all the aggregate
queries of examples/parallel_stress.rs, reading child results through `f`. -/
def sumOpt {A : Type} (f : A → Option Nat) : List A → Nat → Option Nat
  | [], acc => some acc
  | x :: rest, acc =>
      match f x with
      | none => none
      | some v => sumOpt f rest (u64add acc v)

/-- `aggregate_10` (lines 183-203): sums its items' leaf results. -/
def aggregate_10 (m : (Nat × Nat) → Option Nat) (items : List (Nat × Nat)) : Option Nat :=
  sumOpt m items 0

/-- `aggregate_50` (lines 206-228): sums `aggregate_10` over its groups. -/
def aggregate_50 (m : (Nat × Nat) → Option Nat) (groups : List (List (Nat × Nat))) : Option Nat :=
  sumOpt (aggregate_10 m) groups 0

/-- `aggregate_200` (lines 231-246): sums `aggregate_50` over its
super-groups. -/
def aggregate_200 (m : (Nat × Nat) → Option Nat)
    (sgs : List (List (List (Nat × Nat)))) : Option Nat :=
  sumOpt (aggregate_50 m) sgs 0

/-- `mega_query` (lines 249-271): sums `aggregate_200` over its groups. -/
def mega_query (m : (Nat × Nat) → Option Nat)
    (mgs : List (List (List (List (Nat × Nat))))) : Option Nat :=
  sumOpt (aggregate_200 m) mgs 0

/-- `ultra_mega_query` (lines 274-307): the list of per-batch `mega_query`
sums, in batch order. -/
def ultra_mega_query (m : (Nat × Nat) → Option Nat) :
    List (List (List (List (List (Nat × Nat))))) → Option (List Nat)
  | [] => some []
  | b :: rest =>
      match mega_query m b with
      | none => none
      | some s =>
          match ultra_mega_query m rest with
          | none => none
          | some ss => some (s :: ss)

theorem runLeaves_not_mem :
    ∀ (order : List (Nat × Nat)) (m : (Nat × Nat) → Option Nat) (it : Nat × Nat),
      it ∉ order → runLeaves order m it = m it := by
  intro order
  induction order with
  | nil => intro m it _; rfl
  | cons hd rest ih =>
      intro m it hni
      have hne : it ≠ hd := fun h => hni (h ▸ List.mem_cons_self _ _)
      have hrest : it ∉ rest := fun h => hni (List.mem_cons_of_mem _ h)
      show runLeaves rest _ it = m it
      rw [ih _ it hrest]
      simp [hne]

theorem runLeaves_mem :
    ∀ (order : List (Nat × Nat)) (m : (Nat × Nat) → Option Nat) (it : Nat × Nat),
      it ∈ order → runLeaves order m it = some (leaf_work it.1 it.2) := by
  intro order
  induction order with
  | nil => intro m it h; exact absurd h (List.not_mem_nil _)
  | cons hd rest ih =>
      intro m it hmem
      by_cases hr : it ∈ rest
      · exact ih _ it hr
      · have : it = hd := by
          rcases List.mem_cons.mp hmem with h | h
          · exact h
          · exact absurd h hr
        subst this
        show runLeaves rest _ it = _
        rw [runLeaves_not_mem rest _ it hr]
        simp

theorem sumOpt_congr {A : Type} (f g : A → Option Nat) :
    ∀ (l : List A), (∀ x ∈ l, f x = g x) →
      ∀ acc, sumOpt f l acc = sumOpt g l acc := by
  intro l
  induction l with
  | nil => intro _ acc; rfl
  | cons x rest ih =>
      intro h acc
      simp only [sumOpt]
      rw [h x (List.mem_cons_self _ _)]
      cases hgx : g x with
      | none => rfl
      | some v => exact ih (fun y hy => h y (List.mem_cons_of_mem _ hy)) (u64add acc v)

theorem aggregate_10_congr (m m' : (Nat × Nat) → Option Nat) (items : List (Nat × Nat))
    (h : ∀ it ∈ items, m it = m' it) :
    aggregate_10 m items = aggregate_10 m' items :=
  sumOpt_congr m m' items h 0

theorem aggregate_50_congr (m m' : (Nat × Nat) → Option Nat)
    (groups : List (List (Nat × Nat)))
    (h : ∀ it ∈ groups.flatten, m it = m' it) :
    aggregate_50 m groups = aggregate_50 m' groups :=
  sumOpt_congr (aggregate_10 m) (aggregate_10 m') groups
    (fun g hg => aggregate_10_congr m m' g
      (fun it hit => h it (List.mem_flatten.mpr ⟨g, hg, hit⟩))) 0

theorem aggregate_200_congr (m m' : (Nat × Nat) → Option Nat)
    (sgs : List (List (List (Nat × Nat))))
    (h : ∀ it ∈ sgs.flatten.flatten, m it = m' it) :
    aggregate_200 m sgs = aggregate_200 m' sgs :=
  sumOpt_congr (aggregate_50 m) (aggregate_50 m') sgs
    (fun sg hsg => aggregate_50_congr m m' sg
      (fun it hit => h it (by
        rcases List.mem_flatten.mp hit with ⟨g, hg, hitg⟩
        exact List.mem_flatten.mpr ⟨g, List.mem_flatten.mpr ⟨sg, hsg, hg⟩, hitg⟩))) 0

theorem mega_query_congr (m m' : (Nat × Nat) → Option Nat)
    (mgs : List (List (List (List (Nat × Nat)))))
    (h : ∀ it ∈ mgs.flatten.flatten.flatten, m it = m' it) :
    mega_query m mgs = mega_query m' mgs :=
  sumOpt_congr (aggregate_200 m) (aggregate_200 m') mgs
    (fun sg hsg => aggregate_200_congr m m' sg
      (fun it hit => h it (by
        rcases List.mem_flatten.mp hit with ⟨a, ha, hia⟩
        rcases List.mem_flatten.mp ha with ⟨b, hb, hab⟩
        exact List.mem_flatten.mpr
          ⟨a, List.mem_flatten.mpr ⟨b, List.mem_flatten.mpr ⟨sg, hsg, hb⟩, hab⟩, hia⟩))) 0

theorem mem_flatten4_of_mem {A : Type} (b : List (List (List (List A))))
    (bs : List (List (List (List (List A))))) (it : A)
    (hb : b ∈ bs) (hit : it ∈ b.flatten.flatten.flatten) :
    it ∈ bs.flatten.flatten.flatten.flatten := by
  rcases List.mem_flatten.mp hit with ⟨g1, hg1, hig1⟩
  rcases List.mem_flatten.mp hg1 with ⟨g2, hg2, hg12⟩
  rcases List.mem_flatten.mp hg2 with ⟨g3, hg3, hg23⟩
  exact List.mem_flatten.mpr ⟨g1, List.mem_flatten.mpr ⟨g2,
    List.mem_flatten.mpr ⟨g3, List.mem_flatten.mpr ⟨b, hb, hg3⟩, hg23⟩, hg12⟩, hig1⟩

theorem ultra_mega_query_congr (m m' : (Nat × Nat) → Option Nat) :
    ∀ (batches : List (List (List (List (List (Nat × Nat)))))),
      (∀ it ∈ batches.flatten.flatten.flatten.flatten, m it = m' it) →
      ultra_mega_query m batches = ultra_mega_query m' batches := by
  intro batches
  induction batches with
  | nil => intro _; rfl
  | cons b rest ih =>
      intro h
      simp only [ultra_mega_query]
      have hb : mega_query m b = mega_query m' b :=
        mega_query_congr m m' b (fun it hit =>
          h it (mem_flatten4_of_mem b (b :: rest) it (List.mem_cons_self _ _) hit))
      have hrest : ultra_mega_query m rest = ultra_mega_query m' rest :=
        ih (fun it hit => h it (by
          rcases List.mem_flatten.mp hit with ⟨g1, hg1, hig1⟩
          rcases List.mem_flatten.mp hg1 with ⟨g2, hg2, hg12⟩
          rcases List.mem_flatten.mp hg2 with ⟨g3, hg3, hg23⟩
          rcases List.mem_flatten.mp hg3 with ⟨g4, hg4, hg34⟩
          exact List.mem_flatten.mpr ⟨g1, List.mem_flatten.mpr ⟨g2,
            List.mem_flatten.mpr ⟨g3, List.mem_flatten.mpr
              ⟨g4, List.mem_cons_of_mem _ hg4, hg34⟩, hg23⟩, hg12⟩, hig1⟩))
      rw [hb, hrest]

/-- C8 (fan-out determinism): for any nested batch structure of independent
leaf work items (the stress test uses 3 x 5 x 4 x 5 x 10 = 3000 of them) and
any two completion orders of the leaf computations that each cover every leaf
of the structure, the per-batch aggregate sums returned by
`ultra_mega_query` are identical — and both equal the sums over the pure leaf
values `id * weight`, independent of any schedule. -/
theorem fanout_order_independent
    (batches : List (List (List (List (List (Nat × Nat))))))
    (order1 order2 : List (Nat × Nat))
    (h1 : ∀ it ∈ batches.flatten.flatten.flatten.flatten, it ∈ order1)
    (h2 : ∀ it ∈ batches.flatten.flatten.flatten.flatten, it ∈ order2) :
    ultra_mega_query (runLeaves order1 (fun _ => none)) batches
      = ultra_mega_query (runLeaves order2 (fun _ => none)) batches
    ∧ ultra_mega_query (runLeaves order1 (fun _ => none)) batches
      = ultra_mega_query (fun it => some (leaf_work it.1 it.2)) batches := by
  have e1 := ultra_mega_query_congr (runLeaves order1 (fun _ => none))
    (fun it => some (leaf_work it.1 it.2)) batches
    (fun it hit => runLeaves_mem order1 _ it (h1 it hit))
  have e2 := ultra_mega_query_congr (runLeaves order2 (fun _ => none))
    (fun it => some (leaf_work it.1 it.2)) batches
    (fun it hit => runLeaves_mem order2 _ it (h2 it hit))
  exact ⟨e1.trans e2.symm, e1⟩

/-- Witness for C8 at a concrete two-leaf batch structure and two different
completion orders. -/
theorem fanout_order_independent_witness :
    ultra_mega_query (runLeaves [(0, 10), (1, 20)] (fun _ => none))
        [[[[[(0, 10), (1, 20)]]]]]
      = ultra_mega_query (runLeaves [(1, 20), (0, 10), (7, 7)] (fun _ => none))
        [[[[[(0, 10), (1, 20)]]]]]
    ∧ ultra_mega_query (runLeaves [(0, 10), (1, 20)] (fun _ => none))
        [[[[[(0, 10), (1, 20)]]]]]
      = ultra_mega_query (fun it => some (leaf_work it.1 it.2))
        [[[[[(0, 10), (1, 20)]]]]] :=
  fanout_order_independent [[[[[(0, 10), (1, 20)]]]]]
    [(0, 10), (1, 20)] [(1, 20), (0, 10), (7, 7)]
    (by decide) (by decide)

/-! ### Single-flight protocol (spec §4.2 step 3, §5)

Concurrent evaluation of one key is modelled as an interleaved transition
system over caller tasks, faithful to the spec's single-flight rule: the
first caller marks the entry in progress and computes; later callers finding
an in-progress entry block; when the computation finishes, the entry holds
the value and blocked callers resume with it.  Bodies are pure, so a key's
result is the fixed `bodyVal` of that key. -/

/-- Modelled from the spec: the memo-entry computation state visible to
concurrent callers (§3) — absent, in progress with exactly one owner, or
holding the computed value. -/
inductive SFEntry (V : Type) where
  | notComputed
  | inProgress (owner : Nat)
  | done (v : V)

/-- Modelled from the spec: one caller task requesting a key — about to call
`evaluate`, computing the body as the in-flight owner, blocked on another
in-flight computation (§4.2 step 3), or finished with a result. -/
inductive SFTask (V : Type) where
  | wantEval (key : Nat)
  | computing (key : Nat)
  | blocked (key : Nat)
  | finished (key : Nat) (v : V)

/-- Modelled from the spec: the shared state — the Memo Table entries, the
caller tasks, and the per-key body-execution counter. -/
structure SFState (V : Type) where
  entries : Nat → SFEntry V
  tasks : Nat → SFTask V
  execCount : Nat → Nat

/-- Pointwise function update. -/
def upd {A : Type} (f : Nat → A) (i : Nat) (a : A) : Nat → A :=
  fun j => if j = i then a else f j

theorem upd_self {A : Type} (f : Nat → A) (i : Nat) (a : A) : upd f i a i = a := by
  simp [upd]

theorem upd_other {A : Type} (f : Nat → A) (i j : Nat) (a : A) (h : j ≠ i) :
    upd f i a j = f j := by
  simp [upd, h]

/-- Modelled from the spec: the initial state — no entry computed, every task
about to request its key `req t`, no body executed. -/
def SFInit {V : Type} (req : Nat → Nat) : SFState V :=
  ⟨fun _ => SFEntry.notComputed, fun t => SFTask.wantEval (req t), fun _ => 0⟩

/-- Modelled from the spec (§4.2 step 3, §5): the interleaved small-step
transitions of concurrent callers.  `start`: a caller finding no entry
creates it, marks it in progress with itself as owner, and begins executing
the body (bumping the execution counter).  `block`: a caller finding an
in-flight entry blocks.  `hit`: a caller finding a computed entry finishes
with the cached value.  `finish`: the owner completes the body and publishes
`bodyVal k`.  `resume`: a blocked caller wakes on the published value and
finishes with it. -/
inductive SFStep {V : Type} (bodyVal : Nat → V) : SFState V → SFState V → Prop where
  | start (s : SFState V) (t k : Nat) :
      s.tasks t = SFTask.wantEval k →
      s.entries k = SFEntry.notComputed →
      SFStep bodyVal s
        ⟨upd s.entries k (SFEntry.inProgress t),
          upd s.tasks t (SFTask.computing k),
          upd s.execCount k (s.execCount k + 1)⟩
  | block (s : SFState V) (t t' k : Nat) :
      s.tasks t = SFTask.wantEval k →
      s.entries k = SFEntry.inProgress t' →
      SFStep bodyVal s ⟨s.entries, upd s.tasks t (SFTask.blocked k), s.execCount⟩
  | hit (s : SFState V) (t k : Nat) (v : V) :
      s.tasks t = SFTask.wantEval k →
      s.entries k = SFEntry.done v →
      SFStep bodyVal s ⟨s.entries, upd s.tasks t (SFTask.finished k v), s.execCount⟩
  | finish (s : SFState V) (t k : Nat) :
      s.tasks t = SFTask.computing k →
      SFStep bodyVal s
        ⟨upd s.entries k (SFEntry.done (bodyVal k)),
          upd s.tasks t (SFTask.finished k (bodyVal k)),
          s.execCount⟩
  | resume (s : SFState V) (t k : Nat) (v : V) :
      s.tasks t = SFTask.blocked k →
      s.entries k = SFEntry.done v →
      SFStep bodyVal s ⟨s.entries, upd s.tasks t (SFTask.finished k v), s.execCount⟩

/-- The states reachable from the initial state by interleaved steps. -/
inductive SFReach {V : Type} (bodyVal : Nat → V) (req : Nat → Nat) : SFState V → Prop where
  | init : SFReach bodyVal req (SFInit req)
  | step (s s' : SFState V) :
      SFReach bodyVal req s → SFStep bodyVal s s' → SFReach bodyVal req s'

/-- The protocol invariant: the in-progress owner link is a bijection between
computing tasks and in-progress entries, published and received values are
the body's value, a finished task's entry is published, the execution counter
is zero exactly until the entry exists, and it never exceeds one. -/
structure SFInv {V : Type} (bodyVal : Nat → V) (s : SFState V) : Prop where
  ownerMarked : ∀ t k, s.tasks t = SFTask.computing k → s.entries k = SFEntry.inProgress t
  markedOwner : ∀ k t, s.entries k = SFEntry.inProgress t → s.tasks t = SFTask.computing k
  doneVal : ∀ k v, s.entries k = SFEntry.done v → v = bodyVal k
  finishedVal : ∀ t k v, s.tasks t = SFTask.finished k v → v = bodyVal k
  finishedDone : ∀ t k v, s.tasks t = SFTask.finished k v →
    s.entries k = SFEntry.done (bodyVal k)
  zeroIff : ∀ k, (s.entries k = SFEntry.notComputed ↔ s.execCount k = 0)
  countLe : ∀ k, s.execCount k ≤ 1

theorem SFInv_init {V : Type} (bodyVal : Nat → V) (req : Nat → Nat) :
    SFInv bodyVal (SFInit (V := V) req) := by
  refine ⟨?_, ?_, ?_, ?_, ?_, ?_, ?_⟩
  · intro t k h; exact SFTask.noConfusion h
  · intro k t h; exact SFEntry.noConfusion h
  · intro k v h; exact SFEntry.noConfusion h
  · intro t k v h; exact SFTask.noConfusion h
  · intro t k v h; exact SFTask.noConfusion h
  · intro k; exact ⟨fun _ => rfl, fun _ => rfl⟩
  · intro k; exact Nat.zero_le 1

theorem SFmk_entries {V : Type} (e : Nat → SFEntry V) (t : Nat → SFTask V)
    (x : Nat → Nat) : (SFState.mk e t x).entries = e := rfl

theorem SFmk_tasks {V : Type} (e : Nat → SFEntry V) (t : Nat → SFTask V)
    (x : Nat → Nat) : (SFState.mk e t x).tasks = t := rfl

theorem SFmk_exec {V : Type} (e : Nat → SFEntry V) (t : Nat → SFTask V)
    (x : Nat → Nat) : (SFState.mk e t x).execCount = x := rfl

theorem SFInv_step {V : Type} (bodyVal : Nat → V) {s s' : SFState V}
    (hinv : SFInv bodyVal s) (hstep : SFStep bodyVal s s') : SFInv bodyVal s' := by
  cases hstep with
  | start t0 k0 ht he =>
      refine ⟨?_, ?_, ?_, ?_, ?_, ?_, ?_⟩
      · intro t k h
        simp only [SFmk_entries, SFmk_tasks] at h ⊢
        by_cases htt : t = t0
        · subst htt
          rw [upd_self] at h
          injection h with hk
          subst hk
          exact upd_self _ _ _
        · rw [upd_other _ _ _ _ htt] at h
          have hek := hinv.ownerMarked t k h
          have hkk : k ≠ k0 := by
            intro hkk
            rw [hkk, he] at hek
            exact SFEntry.noConfusion hek
          rw [upd_other _ _ _ _ hkk]
          exact hek
      · intro k t h
        simp only [SFmk_entries, SFmk_tasks] at h ⊢
        by_cases hkk : k = k0
        · subst hkk
          rw [upd_self] at h
          injection h with htk
          subst htk
          exact upd_self _ _ _
        · rw [upd_other _ _ _ _ hkk] at h
          have hct := hinv.markedOwner k t h
          have htt : t ≠ t0 := by
            intro htt
            rw [htt, ht] at hct
            exact SFTask.noConfusion hct
          rw [upd_other _ _ _ _ htt]
          exact hct
      · intro k v h
        simp only [SFmk_entries] at h
        by_cases hkk : k = k0
        · subst hkk
          rw [upd_self] at h
          exact SFEntry.noConfusion h
        · rw [upd_other _ _ _ _ hkk] at h
          exact hinv.doneVal k v h
      · intro t k v h
        simp only [SFmk_tasks] at h
        by_cases htt : t = t0
        · subst htt
          rw [upd_self] at h
          exact SFTask.noConfusion h
        · rw [upd_other _ _ _ _ htt] at h
          exact hinv.finishedVal t k v h
      · intro t k v h
        simp only [SFmk_entries, SFmk_tasks] at h ⊢
        by_cases htt : t = t0
        · subst htt
          rw [upd_self] at h
          exact SFTask.noConfusion h
        · rw [upd_other _ _ _ _ htt] at h
          have hed := hinv.finishedDone t k v h
          have hkk : k ≠ k0 := by
            intro hkk
            rw [hkk, he] at hed
            exact SFEntry.noConfusion hed
          rw [upd_other _ _ _ _ hkk]
          exact hed
      · intro k
        simp only [SFmk_entries, SFmk_exec]
        by_cases hkk : k = k0
        · subst hkk
          rw [upd_self, upd_self]
          constructor
          · intro h; exact SFEntry.noConfusion h
          · intro h; exact absurd h (Nat.succ_ne_zero _)
        · rw [upd_other _ _ _ _ hkk, upd_other _ _ _ _ hkk]
          exact hinv.zeroIff k
      · intro k
        simp only [SFmk_exec]
        by_cases hkk : k = k0
        · subst hkk
          rw [upd_self]
          have hz : s.execCount k = 0 := (hinv.zeroIff k).mp he
          rw [hz]
        · rw [upd_other _ _ _ _ hkk]
          exact hinv.countLe k
  | block t0 t' k0 ht he =>
      refine ⟨?_, ?_, hinv.doneVal, ?_, ?_, hinv.zeroIff, hinv.countLe⟩
      · intro t k h
        simp only [SFmk_entries, SFmk_tasks] at h ⊢
        by_cases htt : t = t0
        · subst htt
          rw [upd_self] at h
          exact SFTask.noConfusion h
        · rw [upd_other _ _ _ _ htt] at h
          exact hinv.ownerMarked t k h
      · intro k t h
        simp only [SFmk_entries, SFmk_tasks] at h ⊢
        have hct := hinv.markedOwner k t h
        have htt : t ≠ t0 := by
          intro htt
          rw [htt, ht] at hct
          exact SFTask.noConfusion hct
        rw [upd_other _ _ _ _ htt]
        exact hct
      · intro t k v h
        simp only [SFmk_tasks] at h
        by_cases htt : t = t0
        · subst htt
          rw [upd_self] at h
          exact SFTask.noConfusion h
        · rw [upd_other _ _ _ _ htt] at h
          exact hinv.finishedVal t k v h
      · intro t k v h
        simp only [SFmk_entries, SFmk_tasks] at h ⊢
        by_cases htt : t = t0
        · subst htt
          rw [upd_self] at h
          exact SFTask.noConfusion h
        · rw [upd_other _ _ _ _ htt] at h
          exact hinv.finishedDone t k v h
  | hit t0 k0 v0 ht he =>
      refine ⟨?_, ?_, hinv.doneVal, ?_, ?_, hinv.zeroIff, hinv.countLe⟩
      · intro t k h
        simp only [SFmk_entries, SFmk_tasks] at h ⊢
        by_cases htt : t = t0
        · subst htt
          rw [upd_self] at h
          exact SFTask.noConfusion h
        · rw [upd_other _ _ _ _ htt] at h
          exact hinv.ownerMarked t k h
      · intro k t h
        simp only [SFmk_entries, SFmk_tasks] at h ⊢
        have hct := hinv.markedOwner k t h
        have htt : t ≠ t0 := by
          intro htt
          rw [htt, ht] at hct
          exact SFTask.noConfusion hct
        rw [upd_other _ _ _ _ htt]
        exact hct
      · intro t k v h
        simp only [SFmk_tasks] at h
        by_cases htt : t = t0
        · subst htt
          rw [upd_self] at h
          injection h with hk hv
          have hdv := hinv.doneVal k0 v0 he
          rw [← hk, ← hv]
          exact hdv
        · rw [upd_other _ _ _ _ htt] at h
          exact hinv.finishedVal t k v h
      · intro t k v h
        simp only [SFmk_entries, SFmk_tasks] at h ⊢
        by_cases htt : t = t0
        · subst htt
          rw [upd_self] at h
          injection h with hk hv
          have hdv := hinv.doneVal k0 v0 he
          rw [← hk, he, hdv]
        · rw [upd_other _ _ _ _ htt] at h
          exact hinv.finishedDone t k v h
  | finish t0 k0 ht =>
      have hek0 := hinv.ownerMarked t0 k0 ht
      refine ⟨?_, ?_, ?_, ?_, ?_, ?_, hinv.countLe⟩
      · intro t k h
        simp only [SFmk_entries, SFmk_tasks] at h ⊢
        by_cases htt : t = t0
        · subst htt
          rw [upd_self] at h
          exact SFTask.noConfusion h
        · rw [upd_other _ _ _ _ htt] at h
          have hek := hinv.ownerMarked t k h
          have hkk : k ≠ k0 := by
            intro hkk
            rw [hkk, hek0] at hek
            injection hek with hte
            exact htt hte.symm
          rw [upd_other _ _ _ _ hkk]
          exact hek
      · intro k t h
        simp only [SFmk_entries, SFmk_tasks] at h ⊢
        by_cases hkk : k = k0
        · subst hkk
          rw [upd_self] at h
          exact SFEntry.noConfusion h
        · rw [upd_other _ _ _ _ hkk] at h
          have hct := hinv.markedOwner k t h
          have htt : t ≠ t0 := by
            intro htt
            rw [htt, ht] at hct
            injection hct with hke
            exact hkk hke.symm
          rw [upd_other _ _ _ _ htt]
          exact hct
      · intro k v h
        simp only [SFmk_entries] at h
        by_cases hkk : k = k0
        · subst hkk
          rw [upd_self] at h
          injection h with hv
          exact hv.symm
        · rw [upd_other _ _ _ _ hkk] at h
          exact hinv.doneVal k v h
      · intro t k v h
        simp only [SFmk_tasks] at h
        by_cases htt : t = t0
        · subst htt
          rw [upd_self] at h
          injection h with hk hv
          subst hk
          exact hv.symm
        · rw [upd_other _ _ _ _ htt] at h
          exact hinv.finishedVal t k v h
      · intro t k v h
        simp only [SFmk_entries, SFmk_tasks] at h ⊢
        by_cases htt : t = t0
        · subst htt
          rw [upd_self] at h
          injection h with hk hv
          subst hk
          exact upd_self _ _ _
        · rw [upd_other _ _ _ _ htt] at h
          have hed := hinv.finishedDone t k v h
          have hkk : k ≠ k0 := by
            intro hkk
            rw [hkk, hek0] at hed
            exact SFEntry.noConfusion hed
          rw [upd_other _ _ _ _ hkk]
          exact hed
      · intro k
        simp only [SFmk_entries, SFmk_exec]
        by_cases hkk : k = k0
        · subst hkk
          rw [upd_self]
          constructor
          · intro h; exact SFEntry.noConfusion h
          · intro h
            have := (hinv.zeroIff k).mpr h
            rw [hek0] at this
            exact SFEntry.noConfusion this
        · rw [upd_other _ _ _ _ hkk]
          exact hinv.zeroIff k
  | resume t0 k0 v0 ht he =>
      refine ⟨?_, ?_, hinv.doneVal, ?_, ?_, hinv.zeroIff, hinv.countLe⟩
      · intro t k h
        simp only [SFmk_entries, SFmk_tasks] at h ⊢
        by_cases htt : t = t0
        · subst htt
          rw [upd_self] at h
          exact SFTask.noConfusion h
        · rw [upd_other _ _ _ _ htt] at h
          exact hinv.ownerMarked t k h
      · intro k t h
        simp only [SFmk_entries, SFmk_tasks] at h ⊢
        have hct := hinv.markedOwner k t h
        have htt : t ≠ t0 := by
          intro htt
          rw [htt, ht] at hct
          exact SFTask.noConfusion hct
        rw [upd_other _ _ _ _ htt]
        exact hct
      · intro t k v h
        simp only [SFmk_tasks] at h
        by_cases htt : t = t0
        · subst htt
          rw [upd_self] at h
          injection h with hk hv
          have hdv := hinv.doneVal k0 v0 he
          rw [← hk, ← hv]
          exact hdv
        · rw [upd_other _ _ _ _ htt] at h
          exact hinv.finishedVal t k v h
      · intro t k v h
        simp only [SFmk_entries, SFmk_tasks] at h ⊢
        by_cases htt : t = t0
        · subst htt
          rw [upd_self] at h
          injection h with hk hv
          have hdv := hinv.doneVal k0 v0 he
          rw [← hk, he, hdv]
        · rw [upd_other _ _ _ _ htt] at h
          exact hinv.finishedDone t k v h

theorem SFInv_reach {V : Type} (bodyVal : Nat → V) (req : Nat → Nat)
    {s : SFState V} (h : SFReach bodyVal req s) : SFInv bodyVal s := by
  induction h with
  | init => exact SFInv_init bodyVal req
  | step s s' _ hstep ih => exact SFInv_step bodyVal ih hstep

/-- C6 (single-flight): in every state reachable by interleaved concurrent
callers, at most one task is computing a given key (one computation in
flight per key — callers finding an in-flight entry block instead); any two
callers that finished with the same key received the same result (the body's
value); and a key some caller has finished with has had its body executed
exactly once. -/
theorem single_flight {V : Type} (bodyVal : Nat → V) (req : Nat → Nat)
    (s : SFState V) (h : SFReach bodyVal req s) :
    (∀ t t' k, s.tasks t = SFTask.computing k → s.tasks t' = SFTask.computing k → t = t')
    ∧ (∀ t t' k v v', s.tasks t = SFTask.finished k v → s.tasks t' = SFTask.finished k v' →
        v = v')
    ∧ (∀ t k v, s.tasks t = SFTask.finished k v → s.execCount k = 1) := by
  have hinv := SFInv_reach bodyVal req h
  refine ⟨?_, ?_, ?_⟩
  · intro t t' k h1 h2
    have e1 := hinv.ownerMarked t k h1
    have e2 := hinv.ownerMarked t' k h2
    rw [e1] at e2
    exact SFEntry.inProgress.inj e2
  · intro t t' k v v' h1 h2
    rw [hinv.finishedVal t k v h1, hinv.finishedVal t' k v' h2]
  · intro t k v h1
    have hd := hinv.finishedDone t k v h1
    have hne : s.entries k ≠ SFEntry.notComputed := by
      rw [hd]
      exact fun hc => SFEntry.noConfusion hc
    have hnz : s.execCount k ≠ 0 := fun hz => hne ((hinv.zeroIff k).mpr hz)
    have hle := hinv.countLe k
    omega

/-- The body values for the C6 witness trace. -/
def sfBody : Nat → Nat := fun k => k + 100

/-- Every task requests key 0 in the C6 witness trace. -/
def sfReqAll0 : Nat → Nat := fun _ => 0

/-- Witness trace state after task 0 starts computing key 0. -/
def sfState1 : SFState Nat :=
  ⟨upd (SFInit sfReqAll0).entries 0 (SFEntry.inProgress 0),
    upd (SFInit sfReqAll0).tasks 0 (SFTask.computing 0),
    upd (SFInit (V := Nat) sfReqAll0).execCount 0
      ((SFInit (V := Nat) sfReqAll0).execCount 0 + 1)⟩

/-- Witness trace state after task 0 finishes and publishes `sfBody 0`. -/
def sfState2 : SFState Nat :=
  ⟨upd sfState1.entries 0 (SFEntry.done (sfBody 0)),
    upd sfState1.tasks 0 (SFTask.finished 0 (sfBody 0)),
    sfState1.execCount⟩

/-- Witness for C6 on a concrete two-step trace: after task 0 computed key 0
and finished, the body of key 0 has executed exactly once. -/
theorem single_flight_witness : sfState2.execCount 0 = 1 :=
  (single_flight sfBody sfReqAll0 sfState2
    (SFReach.step _ _ (SFReach.step _ _ SFReach.init (SFStep.start _ 0 0 rfl rfl))
      (SFStep.finish _ 0 0 rfl))).2.2 0 0 (sfBody 0) rfl
